import Mathlib

/-!
# Buffer cache (`kernel/bio.c`)

A shallow embedding of the sharded buffer cache of `kernel/bio.c`.

Modelling conventions.

* Every `struct buf` object of the program has an address of type `Ptr`:
  `Ptr.bufs i` is `&bufs[i]`, `Ptr.head k` is `&bcache[k].head`, `Ptr.null` is
  the null pointer.
* Memory is kept field by field: `State.dev p` is `p->dev`, `State.next p` is
  `p->next`, and so on.  A C assignment `p->f = v` is the pointwise update
  `upd s.f p v`.  Assignments are embedded one by one in source order, so that
  aliasing between the pointers involved is handled exactly as in C.
* `uint` fields (`dev`, `blockno`, `refcnt`, `time_stamp`, `ticks`) are natural
  numbers; `refcnt++` and `refcnt--` wrap modulo `2^32`.  The declaration of
  `struct buf` (`buf.h`) is not among the sources: `time_stamp` is read as an
  unsigned field like `ticks`, from which it is assigned, so that
  `b->time_stamp < min` is a comparison of natural numbers.
* `NBUF` (`param.h`) is a parameter of `binit` and of the statements about the
  pool; the runs that are evaluated use `NBUF = 30`.
* Loops that walk a list until they are back at its head take a `fuel`
  argument; running out of fuel is the outcome `Result.timeout`.
* Spin locks (`acquire`/`release`) and the sleep lock of a buffer belong to the
  concurrent execution of the kernel and carry no data of the sequential
  model.  The result of `holdingsleep(&b->lock)`, a function of
  `sleeplock.c`, is an argument of `brelse` and `bwrite`.
-/

set_option maxRecDepth 1000000

namespace Bio

/-- The constant `NUMBUCKET` of `bio.c`. -/
def NUMBUCKET : Nat := 13

/-- Addresses of the `struct buf` objects of the program. -/
inductive Ptr where
  | null : Ptr
  | bufs (i : Nat) : Ptr
  | head (i : Nat) : Ptr
deriving DecidableEq

/-- Pointwise update of one field map: the C assignment `p->f = v`. -/
def upd {α : Type} (f : Ptr → α) (p : Ptr) (v : α) : Ptr → α :=
  fun q => if q = p then v else f q

/-- The memory of the buffer cache, one map per field of `struct buf`,
together with the global `ticks` and the contents of the disk. -/
structure State where
  valid : Ptr → Nat
  dev : Ptr → Nat
  blockno : Ptr → Nat
  refcnt : Ptr → Nat
  time_stamp : Ptr → Nat
  prev : Ptr → Ptr
  next : Ptr → Ptr
  data : Ptr → List Nat
  ticks : Nat
  disk : Nat → Nat → List Nat

/-- Outcome of a kernel routine: a value, a call of the fatal routine of the kernel with
its message, or a list walk that did not come back to its head within the
given fuel. -/
inductive Result (α : Type) where
  | ok (a : α) : Result α
  | panic (msg : String) : Result α
  | timeout : Result α
deriving DecidableEq

/-- Sequencing of outcomes. -/
def Result.bind {α β : Type} (r : Result α) (f : α → Result β) : Result β :=
  match r with
  | .ok a => f a
  | .panic m => .panic m
  | .timeout => .timeout

/-- The value of an outcome, if there is one. -/
def Result.toOption {α : Type} (r : Result α) : Option α :=
  match r with
  | .ok a => some a
  | _ => none

/-- Memory at boot: statically allocated objects are zero, the disk holds
`disk`. -/
def boot (disk : Nat → Nat → List Nat) : State :=
  { valid := fun _ => 0, dev := fun _ => 0, blockno := fun _ => 0,
    refcnt := fun _ => 0, time_stamp := fun _ => 0,
    prev := fun _ => .null, next := fun _ => .null,
    data := fun _ => [], ticks := 0, disk := disk }

/-- Body of the first loop of `binit`: bucket `i` becomes an empty ring. -/
def binit_head (s : State) (i : Nat) : State :=
  let s := { s with prev := upd s.prev (.head i) (.head i) }
  { s with next := upd s.next (.head i) (.head i) }

/-- Body of the second loop of `binit` for `b = bufs + i`. -/
def binit_link (s : State) (i : Nat) : State :=
  let id := i % NUMBUCKET
  let s := { s with next := upd s.next (.bufs i) (s.next (.head id)) }
  let s := { s with prev := upd s.prev (.bufs i) (.head id) }
  let s := { s with prev := upd s.prev (s.next (.head id)) (.bufs i) }
  { s with next := upd s.next (.head id) (.bufs i) }

/-- The routine `binit`, for a pool of `NBUF` buffers (`NBUF` is a constant of
`param.h`). -/
def binit (NBUF : Nat) (s : State) : State :=
  (List.range NBUF).foldl binit_link ((List.range NUMBUCKET).foldl binit_head s)

/-- First loop of `bget`: walk bucket `id` from `b` along `next`, looking for
`(dev, blockno)`.  `ok (some b)` is the `return b` inside the loop, `ok none`
is leaving the loop at the head. -/
def bget_find (s : State) (id dev blockno : Nat) : Nat → Ptr → Result (Option Ptr)
  | 0, _ => .timeout
  | fuel + 1, b =>
    if b = .head id then .ok none
    else if s.dev b = dev ∧ s.blockno b = blockno then .ok (some b)
    else bget_find s id dev blockno fuel (s.next b)

/-- Inner loop of the eviction scan of `bget`: walk bucket `i` from `b` along
`prev`, keeping the least `time_stamp` seen on a buffer with `refcnt == 0` in
`(min, minb)`. -/
def bget_scan_bucket (s : State) (i : Nat) : Nat → Ptr → Nat × Ptr → Result (Nat × Ptr)
  | 0, _, _ => .timeout
  | fuel + 1, b, acc =>
    if b = .head i then .ok acc
    else if s.refcnt b = 0 ∧ s.time_stamp b < acc.1 then
      bget_scan_bucket s i fuel (s.prev b) (s.time_stamp b, b)
    else bget_scan_bucket s i fuel (s.prev b) acc

/-- Eviction scan of `bget` over the first `n` buckets, starting from
`min = 0x7fffffff`, `minb = 0`. -/
def bget_scan_upto (fuel : Nat) (s : State) (n : Nat) : Result (Nat × Ptr) :=
  (List.range n).foldl
    (fun acc i => acc.bind (fun st => bget_scan_bucket s i fuel (s.prev (.head i)) st))
    (.ok (0x7fffffff, .null))

/-- Eviction scan of `bget`: all buckets `0 .. NUMBUCKET - 1`. -/
def bget_scan (fuel : Nat) (s : State) : Result (Nat × Ptr) :=
  bget_scan_upto fuel s NUMBUCKET

/-- The branch `if(minb){ ... }` of `bget`: give `minb` its new identity and,
when the bucket of the new block differs from the bucket of its old block
number, unlink it and link it behind the head of the new bucket. -/
def bget_recycle (s : State) (dev blockno : Nat) (minb : Ptr) : State :=
  let id := s.blockno minb % NUMBUCKET
  let s := { s with dev := upd s.dev minb dev }
  let s := { s with valid := upd s.valid minb 0 }
  let s := { s with refcnt := upd s.refcnt minb 1 }
  let s := { s with time_stamp := upd s.time_stamp minb s.ticks }
  if blockno % NUMBUCKET = id then
    { s with blockno := upd s.blockno minb blockno }
  else
    let new_id := blockno % NUMBUCKET
    let s := { s with blockno := upd s.blockno minb blockno }
    let s := { s with prev := upd s.prev (s.next minb) (s.prev minb) }
    let s := { s with next := upd s.next (s.prev minb) (s.next minb) }
    let s := { s with next := upd s.next minb (s.next (.head new_id)) }
    let s := { s with prev := upd s.prev minb (.head new_id) }
    let s := { s with prev := upd s.prev (s.next (.head new_id)) minb }
    { s with next := upd s.next (.head new_id) minb }

/-- The branch of `bget` taken when the block is found at `b`. -/
def bget_hit (s : State) (b : Ptr) : State :=
  let s := { s with refcnt := upd s.refcnt b ((s.refcnt b + 1) % 2 ^ 32) }
  { s with time_stamp := upd s.time_stamp b s.ticks }

/-- The routine `bget`. -/
def bget (fuel : Nat) (s : State) (dev blockno : Nat) : Result (State × Ptr) :=
  let id := blockno % NUMBUCKET
  match bget_find s id dev blockno fuel (s.next (.head id)) with
  | .timeout => .timeout
  | .panic m => .panic m
  | .ok (some b) => .ok (bget_hit s b, b)
  | .ok none =>
    match bget_scan fuel s with
    | .timeout => .timeout
    | .panic m => .panic m
    | .ok (_, minb) =>
      if minb ≠ .null then .ok (bget_recycle s dev blockno minb, minb)
      else .panic "bget: no buffers"

/-- Modelled from the spec: the disk driver `virtio_disk_rw(b, write)` is not
part of these sources.  The disk is a map from `(dev, blockno)` to a block of
bytes; a write stores `b->data` at the identity of `b`, a read loads it. -/
def virtio_disk_rw (s : State) (b : Ptr) (write : Nat) : State :=
  if write ≠ 0 then
    { s with disk := fun d n =>
        if d = s.dev b ∧ n = s.blockno b then s.data b else s.disk d n }
  else
    { s with data := upd s.data b (s.disk (s.dev b) (s.blockno b)) }

/-- The routine `bread`. -/
def bread (fuel : Nat) (s : State) (dev blockno : Nat) : Result (State × Ptr) :=
  match bget fuel s dev blockno with
  | .timeout => .timeout
  | .panic m => .panic m
  | .ok (s, b) =>
    if s.valid b = 0 then
      let s := virtio_disk_rw s b 0
      .ok ({ s with valid := upd s.valid b 1 }, b)
    else .ok (s, b)

/-- The routine `bwrite`; `holding` is the result of `holdingsleep(&b->lock)`. -/
def bwrite (holding : Bool) (s : State) (b : Ptr) : Result State :=
  if !holding then .panic "bwrite" else .ok (virtio_disk_rw s b 1)

/-- The routine `brelse`; `holding` is the result of `holdingsleep(&b->lock)`. -/
def brelse (holding : Bool) (s : State) (b : Ptr) : Result State :=
  if !holding then .panic "brelse"
  else .ok { s with refcnt := upd s.refcnt b ((s.refcnt b + 2 ^ 32 - 1) % 2 ^ 32) }

/-- The routine `bpin`. -/
def bpin (s : State) (b : Ptr) : State :=
  { s with refcnt := upd s.refcnt b ((s.refcnt b + 1) % 2 ^ 32) }

/-- The routine `bunpin`. -/
def bunpin (s : State) (b : Ptr) : State :=
  { s with refcnt := upd s.refcnt b ((s.refcnt b + 2 ^ 32 - 1) % 2 ^ 32) }

/-- The clock interrupt raises `ticks`; between two calls of the cache it may
have done so any number of times. -/
def set_ticks (s : State) (t : Nat) : State := { s with ticks := t }

/-- A caller holding `b` overwrites its payload. -/
def set_data (s : State) (b : Ptr) (d : List Nat) : State :=
  { s with data := upd s.data b d }

/-- Nodes visited by `for(b = start; b != &bcache[k].head; b = b->next)`. -/
def walk_next (s : State) (k : Nat) : Nat → Ptr → List Ptr
  | 0, _ => []
  | fuel + 1, b => if b = .head k then [] else b :: walk_next s k fuel (s.next b)

/-- The list of bucket `k`, as walked from `bcache[k].head.next`. -/
def bucket_list (fuel : Nat) (s : State) (k : Nat) : List Ptr :=
  walk_next s k fuel (s.next (.head k))

/-- Buffer `p` is linked in the list of bucket `k`. -/
def Linked (s : State) (k : Nat) (p : Ptr) : Prop :=
  ∃ fuel, p ∈ bucket_list fuel s k

/-- A doubly linked segment: following `n` from `a` runs through `l` to `z`, and
following `p` from `z` runs back through `l` to `a`. -/
def Seg (n p : Ptr → Ptr) : Ptr → List Ptr → Ptr → Prop
  | a, [], z => n a = z ∧ p z = a
  | a, b :: l, z => n a = b ∧ p b = a ∧ Seg n p b l z

/-- The buckets are rings: bucket `k` links exactly the buffers `L k`, in this
order, between its head and its head, and no buffer is linked twice. -/
structure Rings (n p : Ptr → Ptr) (L : Nat → List Nat) : Prop where
  seg : ∀ k, k < NUMBUCKET → Seg n p (.head k) ((L k).map .bufs) (.head k)
  nodup : ∀ k, (L k).Nodup
  disj : ∀ k k2 i, i ∈ L k → i ∈ L k2 → k = k2
  out : ∀ k, NUMBUCKET ≤ k → L k = []

/-- Invariant of the cache with a pool of `NBUF` buffers whose buckets hold
the lists `L`. -/
structure Inv (NBUF : Nat) (s : State) (L : Nat → List Nat) : Prop where
  rings : Rings s.next s.prev L
  pool : ∀ i, i < NBUF ↔ ∃ k, i ∈ L k
  stamp : ∀ q, s.time_stamp q ≤ s.ticks
  valid01 : ∀ q, s.valid q = 0 ∨ s.valid q = 1
  uniq : ∀ k i j, i ∈ L k → j ∈ L k →
    s.dev (.bufs i) = s.dev (.bufs j) → s.blockno (.bufs i) = s.blockno (.bufs j) →
    s.blockno (.bufs i) % NUMBUCKET = k →
    (s.dev (.bufs i) ≠ 0 ∨ s.blockno (.bufs i) ≠ 0) → i = j
  placed : ∀ k i, i ∈ L k → s.blockno (.bufs i) % NUMBUCKET ≠ 0 →
    s.blockno (.bufs i) % NUMBUCKET = k

/-- States of the sequential model: `binit` at boot, then any sequence of calls
of the cache on pool buffers, the clock never running backwards. -/
inductive Reachable (NBUF : Nat) : State → Prop where
  | init (disk : Nat → Nat → List Nat) : Reachable NBUF (binit NBUF (boot disk))
  | tick (s : State) (t : Nat) : Reachable NBUF s → s.ticks ≤ t →
      Reachable NBUF (set_ticks s t)
  | bget (s s2 : State) (fuel dev blockno : Nat) (b : Ptr) : Reachable NBUF s →
      bget fuel s dev blockno = .ok (s2, b) → Reachable NBUF s2
  | bread (s s2 : State) (fuel dev blockno : Nat) (b : Ptr) : Reachable NBUF s →
      bread fuel s dev blockno = .ok (s2, b) → Reachable NBUF s2
  | bwrite (s s2 : State) (holding : Bool) (i : Nat) : Reachable NBUF s → i < NBUF →
      bwrite holding s (.bufs i) = .ok s2 → Reachable NBUF s2
  | brelse (s s2 : State) (holding : Bool) (i : Nat) : Reachable NBUF s → i < NBUF →
      brelse holding s (.bufs i) = .ok s2 → Reachable NBUF s2
  | bpin (s : State) (i : Nat) : Reachable NBUF s → i < NBUF →
      Reachable NBUF (bpin s (.bufs i))
  | bunpin (s : State) (i : Nat) : Reachable NBUF s → i < NBUF →
      Reachable NBUF (bunpin s (.bufs i))
  | set_data (s : State) (i : Nat) (d : List Nat) : Reachable NBUF s → i < NBUF →
      Reachable NBUF (set_data s (.bufs i) d)

/-- The message of a fatal outcome. -/
def Result.msg {α : Type} (r : Result α) : Option String :=
  match r with
  | .panic m => some m
  | _ => none

/-- A call in a run of the sequential model.  `bwrite` and `brelse` are made by
the holder of the buffer. -/
inductive Call where
  | tick (t : Nat) : Call
  | bget (dev blockno : Nat) : Call
  | bread (dev blockno : Nat) : Call
  | bwrite (i : Nat) : Call
  | brelse (i : Nat) : Call
  | bpin (i : Nat) : Call
  | bunpin (i : Nat) : Call
  | set_data (i : Nat) (d : List Nat) : Call

/-- One call of a run on the state `x.1`; the second component is the buffer
returned by the latest `bget` or `bread`.  The value is `none` when the call
does not return, when the clock would run backwards, or when the buffer is not
one of the pool. -/
def exec (NBUF fuel : Nat) (x : State × Ptr) : Call → Option (State × Ptr)
  | .tick t => if x.1.ticks ≤ t then some (set_ticks x.1 t, x.2) else none
  | .bget dev blockno => (bget fuel x.1 dev blockno).toOption
  | .bread dev blockno => (bread fuel x.1 dev blockno).toOption
  | .bwrite i =>
    if i < NBUF then ((bwrite true x.1 (.bufs i)).toOption).map (fun s => (s, x.2)) else none
  | .brelse i =>
    if i < NBUF then ((brelse true x.1 (.bufs i)).toOption).map (fun s => (s, x.2)) else none
  | .bpin i => if i < NBUF then some (bpin x.1 (.bufs i), x.2) else none
  | .bunpin i => if i < NBUF then some (bunpin x.1 (.bufs i), x.2) else none
  | .set_data i d => if i < NBUF then some (set_data x.1 (.bufs i) d, x.2) else none

/-- A run: the calls of a list, one after the other. -/
def exec_all (NBUF fuel : Nat) (x : State × Ptr) : List Call → Option (State × Ptr)
  | [] => some x
  | c :: cs => (exec NBUF fuel x c).bind (fun y => exec_all NBUF fuel y cs)

/-- The state after `binit` on a pool of `NBUF` buffers and the calls `cs`; the
state after `binit` when the run does not go through. -/
def after (NBUF : Nat) (cs : List Call) : State :=
  ((exec_all NBUF (NBUF + 1) (binit NBUF (boot (fun _ _ => [])), .null) cs).getD
    (binit NBUF (boot (fun _ _ => [])), .null)).1

/-- Whether the run `cs` from `binit` goes through. -/
def runs (NBUF : Nat) (cs : List Call) : Bool :=
  (exec_all NBUF (NBUF + 1) (binit NBUF (boot (fun _ _ => [])), .null) cs).isSome

/-- Buffer returned by `bget`, if it returns. -/
def bget_buf (fuel : Nat) (s : State) (dev blockno : Nat) : Option Ptr :=
  (bget fuel s dev blockno).toOption.map (fun x => x.2)

/-- State left by `bget`; the state itself when `bget` does not return. -/
def bget_state (fuel : Nat) (s : State) (dev blockno : Nat) : State :=
  ((bget fuel s dev blockno).toOption.map (fun x => x.1)).getD s

/-- A run on a pool of 30 buffers: at tick `0x7fffffff`, thirty calls of
`bget` for the thirty blocks `(1, 1) .. (1, 30)`, which take every buffer of the
pool, then `brelse(&bufs[0])`. -/
def full_pool_run : List Call :=
  .tick 0x7fffffff :: ((List.range 30).map (fun k => Call.bget 1 (k + 1)) ++ [.brelse 0])

/-- A run on a pool of 30 buffers: `bget(1,1)` at tick 5, `bget(1,14)` at tick
7, `bget(1,1)` again at tick 9. -/
def restamp_run : List Call :=
  [.tick 5, .bget 1 1, .tick 7, .bget 1 14, .tick 9, .bget 1 1]

/-- A run on a pool of 30 buffers: at tick `0x7fffffff`, the calls `bget(1, 13)`,
`bget(1, 26)`, ..., `bget(1, 377)` take 29 buffers, which stay held. -/
def held_pool_run : List Call :=
  .tick 0x7fffffff :: (List.range 29).map (fun k => Call.bget 1 (13 * (k + 1)))

/-- Buffer returned by `bread`, if it returns. -/
def bread_buf (fuel : Nat) (s : State) (dev blockno : Nat) : Option Ptr :=
  (bread fuel s dev blockno).toOption.map (fun x => x.2)

/-- State left by `bread`; the state itself when `bread` does not return. -/
def bread_state (fuel : Nat) (s : State) (dev blockno : Nat) : State :=
  ((bread fuel s dev blockno).toOption.map (fun x => x.1)).getD s

/-- Between the two reads of a round trip: the holder of `b` stores the bytes `d`
in `b->data` and calls `bwrite(b)` and `brelse(b)`. -/
def write_back (s : State) (b : Ptr) (d : List Nat) : Result State :=
  (bwrite true (set_data s b d) b).bind (fun s3 => brelse true s3 b)

end Bio

/-! # Memory mapped files (`kernel/sysfile.c`)

The part of `sys_mmap`, `findvma` and `mmaphandler` that decides the permission
of a page mapped on a fault.  `int` and `uint64` values are natural numbers; the
C operators `|` and `&` are the bitwise operations on them. -/

namespace Sysfile

/-- The fields of `struct vma` (declared in `proc.h`, which is not among the
sources) that `sys_mmap`, `findvma` and `mmaphandler` use.  The field `end` of the
source is `end_` here.  An entry is in use when `valid` is 0. -/
structure vma where
  valid : Nat
  prot : Nat
  flags : Nat
  addr : Nat
  len : Nat
  end_ : Nat

/-- The constants of `fcntl.h` and `riscv.h` that `mmaphandler` reads, and the
macro `PGROUNDUP`; these headers are not among the sources. -/
structure Consts where
  PROT_READ : Nat
  PROT_WRITE : Nat
  PTE_R : Nat
  PTE_W : Nat
  PTE_U : Nat
  PGROUNDUP : Nat → Nat

/-- The values these constants have in xv6: `PROT_READ` 0x1, `PROT_WRITE` 0x2,
`PTE_R` `1 << 1`, `PTE_W` `1 << 2`, `PTE_U` `1 << 4`, pages of 4096 bytes. -/
def xv6 : Consts :=
  { PROT_READ := 1, PROT_WRITE := 2, PTE_R := 2, PTE_W := 4, PTE_U := 16,
    PGROUNDUP := fun a => (a + 4095) / 4096 * 4096 }

/-- The entry that `sys_mmap` fills in for a process of size `sz` (lines
383 to 390): `prot` and `flags` are stored as they are passed. -/
def sys_mmap_vma (c : Consts) (sz len prot flags : Nat) : vma :=
  { valid := 0, prot := prot, flags := flags, addr := c.PGROUNDUP sz, len := len,
    end_ := c.PGROUNDUP (c.PGROUNDUP sz + len) }

/-- The routine `findvma` on the table `p->vmas`: the first entry in use that
covers `addr`. -/
def findvma (vmas : List vma) (addr : Nat) : Option vma :=
  vmas.find? (fun v => decide (v.valid = 0 ∧ v.addr ≤ addr ∧ addr < v.end_))

/-- The permission `perm` that `mmaphandler` computes for a page of the mapping
`v` (lines 426 to 428). -/
def mmaphandler_perm (c : Consts) (v : vma) : Nat :=
  let perm := c.PTE_U
  let perm := if (v.prot ||| c.PROT_READ) ≠ 0 then perm ||| c.PTE_R else perm
  let perm := if (v.prot ||| c.PROT_WRITE) ≠ 0 then perm ||| c.PTE_W else perm
  perm

/-- The routine `mmaphandler`, as far as the permission goes: `none` is the
`return -1` taken when no mapping covers `addr`, `some perm` is the permission
passed to `mappages`.  The allocation of the page, the read of the file and
`mappages` itself are taken to succeed. -/
def mmaphandler (c : Consts) (vmas : List vma) (addr : Nat) : Option Nat :=
  (findvma vmas addr).map (mmaphandler_perm c)

end Sysfile

namespace Bio

/-! ## Doubly linked segments -/

@[simp] theorem upd_same {α : Type} (f : Ptr → α) (p : Ptr) (v : α) : upd f p v p = v := by
  simp [upd]

theorem upd_ne {α : Type} (f : Ptr → α) {p q : Ptr} (v : α) (h : q ≠ p) :
    upd f p v q = f q := by
  simp [upd, h]

theorem seg_congr {n p n2 p2 : Ptr → Ptr} {z : Ptr} :
    ∀ (l : List Ptr) (a : Ptr), Seg n p a l z →
      (∀ x, x ∈ a :: l → n2 x = n x) → (∀ y, y ∈ l ++ [z] → p2 y = p y) →
      Seg n2 p2 a l z := by
  intro l
  induction l with
  | nil =>
    intro a h hn hp
    obtain ⟨h1, h2⟩ := h
    exact ⟨by rw [hn a (by simp)]; exact h1, by rw [hp z (by simp)]; exact h2⟩
  | cons b l ih =>
    intro a h hn hp
    obtain ⟨h1, h2, h3⟩ := h
    refine ⟨by rw [hn a (by simp)]; exact h1, by rw [hp b (by simp)]; exact h2, ?_⟩
    exact ih b h3 (fun x hx => hn x (List.mem_cons_of_mem _ hx))
      (fun y hy => hp y (by simp at hy ⊢; tauto))

theorem seg_append {n p : Ptr → Ptr} {z v : Ptr} {B : List Ptr} :
    ∀ (A : List Ptr) (a : Ptr), Seg n p a (A ++ v :: B) z ↔ Seg n p a A v ∧ Seg n p v B z := by
  intro A
  induction A with
  | nil => intro a; simp [Seg]; tauto
  | cons x A ih => intro a; simp [Seg, ih]; tauto

/-- Reading a segment backwards exchanges the roles of `next` and `prev`. -/
theorem seg_reverse {n p : Ptr → Ptr} {z : Ptr} :
    ∀ (l : List Ptr) (a : Ptr), Seg n p a l z → Seg p n z l.reverse a := by
  intro l
  induction l with
  | nil => intro a h; exact ⟨h.2, h.1⟩
  | cons b l ih =>
    intro a h
    obtain ⟨h1, h2, h3⟩ := h
    have := ih b h3
    rw [List.reverse_cons, show l.reverse ++ [b] = l.reverse ++ b :: [] from rfl, seg_append]
    exact ⟨this, h2, h1⟩

theorem seg_prev_mem {n p : Ptr → Ptr} {v : Ptr} :
    ∀ (A : List Ptr) (a : Ptr), Seg n p a A v → p v ∈ a :: A := by
  intro A
  induction A with
  | nil => intro a h; simp [h.2]
  | cons x A ih =>
    intro a h
    exact List.mem_cons_of_mem _ (ih x h.2.2)

theorem seg_next_mem {n p : Ptr → Ptr} {v z : Ptr} (B : List Ptr) (h : Seg n p v B z) :
    n v ∈ B ++ [z] := by
  cases B with
  | nil => simp [h.1]
  | cons b B => simp [h.1]

/-- Unlinking `v` from a segment: `v->next->prev = v->prev; v->prev->next = v->next`. -/
theorem seg_unlink {n p : Ptr → Ptr} {z v : Ptr} {B : List Ptr} :
    ∀ (A : List Ptr) (a : Ptr), Seg n p a (A ++ v :: B) z →
      (a :: (A ++ B)).Nodup → (A ++ B ++ [z]).Nodup →
      Seg (upd n (p v) (n v)) (upd p (n v) (p v)) a (A ++ B) z := by
  intro A
  induction A with
  | nil =>
    intro a h hs ht
    obtain ⟨h1, h2, h3⟩ := h
    simp only [List.nil_append] at hs ht ⊢
    rw [h2]
    cases B with
    | nil =>
      obtain ⟨h4, h5⟩ := h3
      rw [h4]
      exact ⟨upd_same _ _ _, upd_same _ _ _⟩
    | cons b B =>
      obtain ⟨h4, h5, h6⟩ := h3
      rw [h4]
      refine ⟨upd_same _ _ _, upd_same _ _ _, ?_⟩
      refine seg_congr B b h6 ?_ ?_
      · intro x hx
        apply upd_ne
        rintro rfl
        exact (List.nodup_cons.mp hs).1 hx
      · intro y hy
        apply upd_ne
        rintro rfl
        exact (List.nodup_cons.mp ht).1 hy
  | cons x A ih =>
    intro a h hs ht
    obtain ⟨h1, h2, h3⟩ := h
    have hpv : p v ∈ x :: A := seg_prev_mem A x ((seg_append A x).mp h3).1
    have hnv : n v ∈ B ++ [z] := seg_next_mem B ((seg_append A x).mp h3).2
    have hs2 : (x :: (A ++ B)).Nodup := (List.nodup_cons.mp hs).2
    have ht2 : (A ++ B ++ [z]).Nodup := by
      simp only [List.cons_append] at ht
      exact (List.nodup_cons.mp ht).2
    refine ⟨?_, ?_, ih x h3 hs2 ht2⟩
    · rw [upd_ne _ _ ?_]
      · exact h1
      · rintro rfl
        have h0 := (List.nodup_cons.mp hs).1
        apply h0
        simp only [List.cons_append, List.mem_cons, List.mem_append] at hpv ⊢
        tauto
    · rw [upd_ne _ _ ?_]
      · exact h2
      · rintro rfl
        simp only [List.cons_append] at ht
        have h0 := (List.nodup_cons.mp ht).1
        apply h0
        simp only [List.mem_append, List.mem_singleton] at hnv ⊢
        tauto

/-- Linking `v` behind the head `h` of a ring:
`v->next = h->next; v->prev = h; h->next->prev = v; h->next = v`. -/
theorem seg_push {n p : Ptr → Ptr} {h v : Ptr} (l : List Ptr) (hseg : Seg n p h l h)
    (hnd : l.Nodup) (hh : h ∉ l) (hv : v ∉ l) (hvh : v ≠ h) :
    Seg (upd (upd n v (n h)) h v) (upd (upd p v h) (n h) v) h (v :: l) h := by
  have hnh : n h ∈ l ++ [h] := seg_next_mem l hseg
  have hvn : v ≠ n h := by
    rintro rfl
    simp only [List.mem_append, List.mem_singleton] at hnh
    tauto
  refine ⟨upd_same _ _ _, ?_, ?_⟩
  · rw [upd_ne _ _ hvn, upd_same]
  · cases l with
    | nil =>
      obtain ⟨h1, h2⟩ := hseg
      refine ⟨?_, ?_⟩
      · rw [upd_ne _ _ hvh, upd_same, h1]
      · rw [h1, upd_same]
    | cons x l =>
      obtain ⟨h1, h2, h3⟩ := hseg
      have hxh : x ≠ h := fun e => hh (by simp [e])
      refine ⟨?_, ?_, ?_⟩
      · rw [upd_ne _ _ hvh, upd_same, h1]
      · rw [h1, upd_same]
      · refine seg_congr l x h3 ?_ ?_
        · intro y hy
          have hyh : y ≠ h := fun e => hh (e ▸ hy)
          have hyv : y ≠ v := fun e => hv (e ▸ hy)
          rw [upd_ne _ _ hyh, upd_ne _ _ hyv]
        · intro y hy
          have hyx : y ≠ x := by
            rintro rfl
            simp only [List.mem_append, List.mem_singleton] at hy
            rcases hy with hy | hy
            · exact (List.nodup_cons.mp hnd).1 hy
            · exact hxh hy
          have hyv : y ≠ v := by
            rintro rfl
            simp only [List.mem_append, List.mem_singleton] at hy
            rcases hy with hy | hy
            · exact hv (List.mem_cons_of_mem _ hy)
            · exact hvh hy
          rw [h1, upd_ne _ _ hyx, upd_ne _ _ hyv]

/-! ## Rings of buckets -/

theorem bufs_injective : Function.Injective Ptr.bufs := by
  intro a b h
  cases h
  rfl

theorem rings_lt {n p : Ptr → Ptr} {L : Nat → List Nat} (R : Rings n p L) {i j : Nat}
    (hi : i ∈ L j) : j < NUMBUCKET := by
  by_contra hj
  have := R.out j (not_lt.mp hj)
  rw [this] at hi
  simp at hi

theorem rings_mem_next {n p : Ptr → Ptr} {L : Nat → List Nat} (R : Rings n p L) {i j : Nat}
    (hi : i ∈ L j) : n (.bufs i) = .head j ∨ ∃ x, x ∈ L j ∧ x ≠ i ∧ n (.bufs i) = .bufs x := by
  obtain ⟨A, B, hAB⟩ := List.append_of_mem hi
  have hseg := R.seg j (rings_lt R hi)
  have hnd := R.nodup j
  rw [hAB] at hseg hnd
  simp only [List.map_append, List.map_cons] at hseg
  have h2 := seg_next_mem _ ((seg_append _ _).mp hseg).2
  simp only [List.mem_append, List.mem_map, List.mem_singleton] at h2
  rcases h2 with ⟨x, hx, hx2⟩ | h2
  · right
    refine ⟨x, ?_, ?_, hx2.symm⟩
    · rw [hAB]; simp [hx]
    · rintro rfl
      have := (List.nodup_middle.mp hnd)
      simp [hx] at this
  · left; exact h2

theorem rings_mem_prev {n p : Ptr → Ptr} {L : Nat → List Nat} (R : Rings n p L) {i j : Nat}
    (hi : i ∈ L j) : p (.bufs i) = .head j ∨ ∃ x, x ∈ L j ∧ x ≠ i ∧ p (.bufs i) = .bufs x := by
  obtain ⟨A, B, hAB⟩ := List.append_of_mem hi
  have hseg := R.seg j (rings_lt R hi)
  have hnd := R.nodup j
  rw [hAB] at hseg hnd
  simp only [List.map_append, List.map_cons] at hseg
  have h2 := seg_prev_mem _ _ ((seg_append _ _).mp hseg).1
  simp only [List.mem_cons, List.mem_map] at h2
  rcases h2 with h2 | ⟨x, hx, hx2⟩
  · left; exact h2
  · right
    refine ⟨x, ?_, ?_, hx2.symm⟩
    · rw [hAB]; simp [hx]
    · rintro rfl
      have := (List.nodup_middle.mp hnd)
      simp [hx] at this

theorem rings_head_next {n p : Ptr → Ptr} {L : Nat → List Nat} (R : Rings n p L) {k : Nat}
    (hk : k < NUMBUCKET) : n (.head k) = .head k ∨ ∃ x, x ∈ L k ∧ n (.head k) = .bufs x := by
  have h2 := seg_next_mem _ (R.seg k hk)
  simp only [List.mem_append, List.mem_map, List.mem_singleton] at h2
  rcases h2 with ⟨x, hx, hx2⟩ | h2
  · right; exact ⟨x, hx, hx2.symm⟩
  · left; exact h2

/-- Unlinking buffer `i` removes it from the list of its bucket and leaves all
other lists as they are. -/
theorem rings_unlink {n p : Ptr → Ptr} {L : Nat → List Nat} (R : Rings n p L) {i j : Nat}
    (hi : i ∈ L j) :
    Rings (upd n (p (.bufs i)) (n (.bufs i))) (upd p (n (.bufs i)) (p (.bufs i)))
      (fun k => if k = j then (L j).erase i else L k) := by
  have hj := rings_lt R hi
  refine ⟨?_, ?_, ?_, ?_⟩
  · intro k hk
    by_cases hkj : k = j
    · subst hkj
      simp only [if_true]
      obtain ⟨A, B, hAB⟩ := List.append_of_mem hi
      have hseg := R.seg k hk
      have hnd := R.nodup k
      rw [hAB] at hseg hnd ⊢
      have hnd2 := List.nodup_middle.mp hnd
      have hiA : i ∉ A := fun h => (List.nodup_cons.mp hnd2).1 (by simp [h])
      rw [List.erase_append_right _ hiA, List.erase_cons_head]
      simp only [List.map_append, List.map_cons] at hseg ⊢
      have hm : (List.map Ptr.bufs A ++ List.map Ptr.bufs B).Nodup := by
        rw [← List.map_append]
        exact (List.nodup_cons.mp hnd2).2.map bufs_injective
      refine seg_unlink _ _ hseg ?_ ?_
      · rw [List.nodup_cons]
        exact ⟨by simp, hm⟩
      · rw [List.nodup_append]
        exact ⟨hm, by simp, by simp⟩
    · simp only [if_neg hkj]
      refine seg_congr _ _ (R.seg k hk) ?_ ?_
      · intro x hx
        apply upd_ne
        intro e
        simp only [List.mem_cons, List.mem_map] at hx
        rcases rings_mem_prev R hi with h1 | ⟨y, hy, _, h1⟩
        · rw [h1] at e
          rcases hx with hx | ⟨w, _, hw⟩
          · rw [hx] at e; cases e; exact hkj rfl
          · rw [← hw] at e; cases e
        · rw [h1] at e
          rcases hx with hx | ⟨w, hw1, hw⟩
          · rw [hx] at e; cases e
          · rw [← hw] at e; cases e; exact hkj (R.disj _ _ _ hw1 hy)
      · intro x hx
        apply upd_ne
        intro e
        simp only [List.mem_append, List.mem_singleton, List.mem_map] at hx
        rcases rings_mem_next R hi with h1 | ⟨y, hy, _, h1⟩
        · rw [h1] at e
          rcases hx with ⟨w, _, hw⟩ | hx
          · rw [← hw] at e; cases e
          · rw [hx] at e; cases e; exact hkj rfl
        · rw [h1] at e
          rcases hx with ⟨w, hw1, hw⟩ | hx
          · rw [← hw] at e; cases e; exact hkj (R.disj _ _ _ hw1 hy)
          · rw [hx] at e; cases e
  · intro k
    by_cases hkj : k = j
    · subst hkj; simp only [if_true]; exact (R.nodup k).erase i
    · simp only [if_neg hkj]; exact R.nodup k
  · intro k k2 x hx hx2
    have h1 : x ∈ L k := by
      by_cases hkj : k = j
      · subst hkj; simp only [if_true] at hx; exact List.mem_of_mem_erase hx
      · simp only [if_neg hkj] at hx; exact hx
    have h2 : x ∈ L k2 := by
      by_cases hkj : k2 = j
      · subst hkj; simp only [if_true] at hx2; exact List.mem_of_mem_erase hx2
      · simp only [if_neg hkj] at hx2; exact hx2
    exact R.disj _ _ _ h1 h2
  · intro k hk
    have hkj : k ≠ j := by omega
    simp only [if_neg hkj]
    exact R.out k hk

theorem rings_unlink_mem {n p : Ptr → Ptr} {L : Nat → List Nat} (R : Rings n p L) {i j : Nat}
    (hi : i ∈ L j) (k x : Nat) :
    x ∈ (if k = j then (L j).erase i else L k) ↔ x ∈ L k ∧ x ≠ i := by
  by_cases hkj : k = j
  · subst hkj
    simp only [if_true]
    rw [(R.nodup k).mem_erase_iff]
    tauto
  · simp only [if_neg hkj]
    constructor
    · intro hx
      refine ⟨hx, ?_⟩
      rintro rfl
      exact hkj (R.disj _ _ _ hx hi)
    · exact fun h => h.1

/-- Linking a buffer that is in no list behind the head of bucket `k0`. -/
theorem rings_push {n p : Ptr → Ptr} {L : Nat → List Nat} (R : Rings n p L) {i k0 : Nat}
    (hi : ∀ k, i ∉ L k) (hk0 : k0 < NUMBUCKET) :
    Rings (upd (upd n (.bufs i) (n (.head k0))) (.head k0) (.bufs i))
      (upd (upd p (.bufs i) (.head k0)) (n (.head k0)) (.bufs i))
      (fun k => if k = k0 then i :: L k0 else L k) := by
  refine ⟨?_, ?_, ?_, ?_⟩
  · intro k hk
    by_cases hkj : k = k0
    · subst hkj
      simp only [if_true, List.map_cons]
      refine seg_push _ (R.seg k hk) ((R.nodup k).map bufs_injective) (by simp) ?_ (by simp)
      simp only [List.mem_map, not_exists, not_and]
      intro x hx e
      cases e
      exact hi k hx
    · simp only [if_neg hkj]
      refine seg_congr _ _ (R.seg k hk) ?_ ?_
      · intro x hx
        simp only [List.mem_cons, List.mem_map] at hx
        have h1 : x ≠ .head k0 := by
          rintro rfl
          rcases hx with hx | ⟨w, _, hw⟩
          · cases hx; exact hkj rfl
          · cases hw
        have h2 : x ≠ .bufs i := by
          rintro rfl
          rcases hx with hx | ⟨w, hw1, hw⟩
          · cases hx
          · cases hw; exact hi k hw1
        rw [upd_ne _ _ h1, upd_ne _ _ h2]
      · intro x hx
        simp only [List.mem_append, List.mem_singleton, List.mem_map] at hx
        have h1 : x ≠ n (.head k0) := by
          intro e
          rcases rings_head_next R hk0 with h3 | ⟨y, hy, h3⟩
          · rw [h3] at e
            rcases hx with ⟨w, _, hw⟩ | hx
            · rw [← hw] at e; cases e
            · rw [hx] at e; cases e; exact hkj rfl
          · rw [h3] at e
            rcases hx with ⟨w, hw1, hw⟩ | hx
            · rw [← hw] at e; cases e; exact hkj (R.disj _ _ _ hw1 hy)
            · rw [hx] at e; cases e
        have h2 : x ≠ .bufs i := by
          rintro rfl
          rcases hx with ⟨w, hw1, hw⟩ | hx
          · cases hw; exact hi k hw1
          · cases hx
        rw [upd_ne _ _ h1, upd_ne _ _ h2]
  · intro k
    by_cases hkj : k = k0
    · subst hkj; simp only [if_true]; exact List.nodup_cons.mpr ⟨hi k, R.nodup k⟩
    · simp only [if_neg hkj]; exact R.nodup k
  · intro k k2 x hx hx2
    by_cases hxi : x = i
    · subst hxi
      by_cases hkj : k = k0
      · by_cases hkj2 : k2 = k0
        · rw [hkj, hkj2]
        · simp only [if_neg hkj2] at hx2; exact absurd hx2 (hi k2)
      · simp only [if_neg hkj] at hx; exact absurd hx (hi k)
    · have h1 : x ∈ L k := by
        by_cases hkj : k = k0
        · subst hkj; simp only [if_true, List.mem_cons] at hx; tauto
        · simp only [if_neg hkj] at hx; exact hx
      have h2 : x ∈ L k2 := by
        by_cases hkj : k2 = k0
        · subst hkj; simp only [if_true, List.mem_cons] at hx2; tauto
        · simp only [if_neg hkj] at hx2; exact hx2
      exact R.disj _ _ _ h1 h2
  · intro k hk
    have hkj : k ≠ k0 := by omega
    simp only [if_neg hkj]
    exact R.out k hk

/-! ## `binit` -/

theorem foldl_binit_head (s : State) :
    ∀ m, (∀ k, k < m → ((List.range m).foldl binit_head s).next (.head k) = .head k ∧
        ((List.range m).foldl binit_head s).prev (.head k) = .head k) ∧
      ((List.range m).foldl binit_head s).dev = s.dev ∧
      ((List.range m).foldl binit_head s).blockno = s.blockno ∧
      ((List.range m).foldl binit_head s).time_stamp = s.time_stamp ∧
      ((List.range m).foldl binit_head s).ticks = s.ticks ∧
      ((List.range m).foldl binit_head s).refcnt = s.refcnt ∧
      ((List.range m).foldl binit_head s).valid = s.valid := by
  intro m
  induction m with
  | zero => simp
  | succ m ih =>
    rw [List.range_succ, List.foldl_append]
    obtain ⟨h1, h2, h3, h4, h5, h6, h7⟩ := ih
    refine ⟨?_, h2, h3, h4, h5, h6, h7⟩
    intro k hk
    simp only [List.foldl_cons, List.foldl_nil, binit_head]
    by_cases hkm : k = m
    · subst hkm
      exact ⟨upd_same _ _ _, upd_same _ _ _⟩
    · have hne : Ptr.head k ≠ Ptr.head m := fun e => hkm (by cases e; rfl)
      rw [upd_ne _ _ hne, upd_ne _ _ hne]
      exact h1 k (by omega)

theorem binit_link_next (s : State) (i : Nat) :
    (binit_link s i).next =
      upd (upd s.next (.bufs i) (s.next (.head (i % NUMBUCKET)))) (.head (i % NUMBUCKET))
        (.bufs i) := rfl

theorem binit_link_prev (s : State) (i : Nat) :
    (binit_link s i).prev =
      upd (upd s.prev (.bufs i) (.head (i % NUMBUCKET))) (s.next (.head (i % NUMBUCKET)))
        (.bufs i) := by
  have hne : Ptr.head (i % NUMBUCKET) ≠ Ptr.bufs i := by intro e; cases e
  simp only [binit_link, upd_ne _ _ hne]

theorem foldl_binit_link (s : State) (hs : Rings s.next s.prev (fun _ => [])) :
    ∀ m, (∃ L, Rings ((List.range m).foldl binit_link s).next
          ((List.range m).foldl binit_link s).prev L ∧
        (∀ i, i < m ↔ ∃ k, i ∈ L k) ∧ (∀ k i, i ∈ L k → i % NUMBUCKET = k)) ∧
      ((List.range m).foldl binit_link s).dev = s.dev ∧
      ((List.range m).foldl binit_link s).blockno = s.blockno ∧
      ((List.range m).foldl binit_link s).time_stamp = s.time_stamp ∧
      ((List.range m).foldl binit_link s).ticks = s.ticks ∧
      ((List.range m).foldl binit_link s).refcnt = s.refcnt ∧
      ((List.range m).foldl binit_link s).valid = s.valid := by
  intro m
  induction m with
  | zero =>
    refine ⟨⟨fun _ => [], hs, ?_, ?_⟩, rfl, rfl, rfl, rfl, rfl, rfl⟩
    · simp
    · simp
  | succ m ih =>
    rw [List.range_succ, List.foldl_append]
    obtain ⟨⟨L, hR, hpool, hplace⟩, h2, h3, h4, h5, h6, h7⟩ := ih
    refine ⟨?_, h2, h3, h4, h5, h6, h7⟩
    simp only [List.foldl_cons, List.foldl_nil]
    have hfresh : ∀ k, m ∉ L k := by
      intro k hk
      have := (hpool m).mpr ⟨k, hk⟩
      omega
    have hk0 : m % NUMBUCKET < NUMBUCKET := Nat.mod_lt _ (by decide)
    refine ⟨fun k => if k = m % NUMBUCKET then m :: L (m % NUMBUCKET) else L k, ?_, ?_, ?_⟩
    · rw [binit_link_next, binit_link_prev]
      exact rings_push hR hfresh hk0
    · intro i
      constructor
      · intro hi
        by_cases him : i = m
        · subst him
          exact ⟨i % NUMBUCKET, by simp⟩
        · obtain ⟨k, hk⟩ := (hpool i).mp (by omega)
          refine ⟨k, ?_⟩
          by_cases hkk : k = m % NUMBUCKET
          · simp only [if_pos hkk, List.mem_cons]
            right
            rw [← hkk]; exact hk
          · simp only [if_neg hkk]; exact hk
      · rintro ⟨k, hk⟩
        by_cases hkk : k = m % NUMBUCKET
        · simp only [if_pos hkk, List.mem_cons] at hk
          rcases hk with hk | hk
          · omega
          · have := (hpool i).mpr ⟨_, hk⟩
            omega
        · simp only [if_neg hkk] at hk
          have := (hpool i).mpr ⟨_, hk⟩
          omega
    · intro k i hk
      by_cases hkk : k = m % NUMBUCKET
      · simp only [if_pos hkk, List.mem_cons] at hk
        rcases hk with hk | hk
        · rw [hk, hkk]
        · rw [hkk]; exact hplace _ _ hk
      · simp only [if_neg hkk] at hk
        exact hplace _ _ hk

/-- After `binit` the buckets are rings that hold the pool, buffer `i` in
bucket `i % NUMBUCKET`, and every buffer has the identity and counters it had at
boot. -/
theorem binit_rings (NBUF : Nat) (s : State) :
    (∃ L, Rings (binit NBUF s).next (binit NBUF s).prev L ∧
      (∀ i, i < NBUF ↔ ∃ k, i ∈ L k) ∧ (∀ k i, i ∈ L k → i % NUMBUCKET = k)) ∧
    (binit NBUF s).dev = s.dev ∧ (binit NBUF s).blockno = s.blockno ∧
    (binit NBUF s).time_stamp = s.time_stamp ∧ (binit NBUF s).ticks = s.ticks ∧
    (binit NBUF s).refcnt = s.refcnt ∧ (binit NBUF s).valid = s.valid := by
  obtain ⟨h1, h2, h3, h4, h5, h6, h7⟩ := foldl_binit_head s NUMBUCKET
  have hs : Rings ((List.range NUMBUCKET).foldl binit_head s).next
      ((List.range NUMBUCKET).foldl binit_head s).prev (fun _ => []) := by
    refine ⟨?_, ?_, ?_, ?_⟩
    · intro k hk
      exact h1 k hk
    · intro k; exact List.nodup_nil
    · intro k k2 i hi; simp at hi
    · intro k _; rfl
  obtain ⟨g1, g2, g3, g4, g5, g6, g7⟩ := foldl_binit_link _ hs NBUF
  unfold binit
  exact ⟨g1, g2.trans h2, g3.trans h3, g4.trans h4, g5.trans h5, g6.trans h6, g7.trans h7⟩

theorem binit_inv (NBUF : Nat) (disk : Nat → Nat → List Nat) :
    ∃ L, Inv NBUF (binit NBUF (boot disk)) L ∧ (∀ k i, i ∈ L k → i % NUMBUCKET = k) := by
  obtain ⟨⟨L, hR, hpool, hplace⟩, h2, h3, h4, h5, _, h7⟩ := binit_rings NBUF (boot disk)
  refine ⟨L, ⟨hR, hpool, ?_, ?_, ?_, ?_⟩, hplace⟩
  · intro q; rw [h4, h5]; simp [boot]
  · intro q; rw [h7]; simp [boot]
  · intro k i j _ _ _ _ _ h
    rw [h2, h3] at h
    simp [boot] at h
  · intro k i _ h
    rw [h3] at h
    simp [boot] at h

/-! ## Walking a bucket -/

theorem walk_next_seg (s : State) (k : Nat) :
    ∀ (l : List Nat) (a : Ptr) (fuel : Nat),
      Seg s.next s.prev a (l.map .bufs) (.head k) →
      walk_next s k fuel (s.next a) = (l.map Ptr.bufs).take fuel := by
  intro l
  induction l with
  | nil =>
    intro a fuel h
    cases fuel with
    | zero => rfl
    | succ fuel => simp [walk_next, h.1]
  | cons i l ih =>
    intro a fuel h
    cases fuel with
    | zero => rfl
    | succ fuel =>
      obtain ⟨h1, _, h3⟩ := h
      simp only [walk_next, h1, List.map_cons, List.take_succ_cons]
      rw [if_neg (by intro e; cases e), ih _ _ h3]

theorem linked_iff {s : State} {L : Nat → List Nat} (R : Rings s.next s.prev L) {k : Nat}
    (hk : k < NUMBUCKET) (q : Ptr) : Linked s k q ↔ ∃ i, i ∈ L k ∧ q = .bufs i := by
  unfold Linked bucket_list
  constructor
  · rintro ⟨fuel, h⟩
    rw [walk_next_seg s k _ _ fuel (R.seg k hk)] at h
    have := List.mem_of_mem_take h
    simp only [List.mem_map] at this
    obtain ⟨i, hi, e⟩ := this
    exact ⟨i, hi, e.symm⟩
  · rintro ⟨i, hi, rfl⟩
    refine ⟨(L k).length, ?_⟩
    rw [walk_next_seg s k _ _ _ (R.seg k hk), List.take_of_length_le (by simp)]
    exact List.mem_map_of_mem _ hi

theorem bget_find_seg (s : State) (id dev blockno : Nat) :
    ∀ (l : List Nat) (a : Ptr) (fuel : Nat),
      Seg s.next s.prev a (l.map .bufs) (.head id) → l.length < fuel →
      bget_find s id dev blockno fuel (s.next a) =
        .ok ((l.find? (fun i => decide (s.dev (.bufs i) = dev ∧ s.blockno (.bufs i) = blockno))).map
          Ptr.bufs) := by
  intro l
  induction l with
  | nil =>
    intro a fuel h hf
    cases fuel with
    | zero => omega
    | succ fuel => simp [bget_find, h.1]
  | cons i l ih =>
    intro a fuel h hf
    cases fuel with
    | zero => omega
    | succ fuel =>
      obtain ⟨h1, _, h3⟩ := h
      simp only [bget_find, h1, List.find?_cons]
      rw [if_neg (by intro e; cases e)]
      by_cases hm : s.dev (.bufs i) = dev ∧ s.blockno (.bufs i) = blockno
      · rw [if_pos hm]
        simp [hm]
      · rw [if_neg hm]
        simp only [hm, decide_False]
        exact ih _ _ h3 (by simpa using hf)

/-! ## The eviction scan -/

/-- Whatever the state, the scan of one bucket either keeps `(min, minb)` or
ends on a buffer it saw with `refcnt == 0` and a smaller `time_stamp`. -/
theorem scan_bucket_sound (s : State) (i : Nat) :
    ∀ (fuel : Nat) (b : Ptr) (acc r : Nat × Ptr), bget_scan_bucket s i fuel b acc = .ok r →
      r = acc ∨ (s.refcnt r.2 = 0 ∧ s.time_stamp r.2 = r.1 ∧ r.1 < acc.1) := by
  intro fuel
  induction fuel with
  | zero => intro b acc r h; simp [bget_scan_bucket] at h
  | succ fuel ih =>
    intro b acc r h
    simp only [bget_scan_bucket] at h
    split at h
    · left; cases h; rfl
    · split at h
      · rename_i hc
        rcases ih _ _ _ h with h1 | ⟨h1, h2, h3⟩
        · right
          subst h1
          exact ⟨hc.1, rfl, hc.2⟩
        · right
          exact ⟨h1, h2, lt_trans h3 hc.2⟩
      · exact ih _ _ _ h

theorem bget_scan_upto_succ (fuel : Nat) (s : State) (m : Nat) :
    bget_scan_upto fuel s (m + 1) =
      (bget_scan_upto fuel s m).bind
        (fun st => bget_scan_bucket s m fuel (s.prev (.head m)) st) := by
  simp [bget_scan_upto, List.range_succ, List.foldl_append]

theorem scan_upto_sound (fuel : Nat) (s : State) :
    ∀ (m : Nat) (r : Nat × Ptr), bget_scan_upto fuel s m = .ok r →
      r = (0x7fffffff, .null) ∨
        (s.refcnt r.2 = 0 ∧ s.time_stamp r.2 = r.1 ∧ r.1 < 0x7fffffff) := by
  intro m
  induction m with
  | zero =>
    intro r h
    simp only [bget_scan_upto, List.range_zero, List.foldl_nil] at h
    cases h
    left; rfl
  | succ m ih =>
    intro r h
    rw [bget_scan_upto_succ] at h
    cases hm : bget_scan_upto fuel s m with
    | timeout => rw [hm] at h; simp [Result.bind] at h
    | panic msg => rw [hm] at h; simp [Result.bind] at h
    | ok acc =>
      rw [hm] at h
      simp only [Result.bind] at h
      rcases scan_bucket_sound s m _ _ _ _ h with h1 | ⟨h1, h2, h3⟩
      · subst h1; exact ih _ hm
      · right
        refine ⟨h1, h2, ?_⟩
        rcases ih _ hm with h4 | ⟨_, _, h4⟩
        · rw [h4] at h3; exact h3
        · exact lt_trans h3 h4

/-- Walking a ring backwards from its head: the scan of one bucket comes back to
the head and its result is below the stamp of every unused buffer of the ring. -/
theorem scan_bucket_seg (s : State) (i : Nat) :
    ∀ (w : List Ptr) (a : Ptr) (fuel : Nat) (acc : Nat × Ptr),
      Seg s.prev s.next a w (.head i) → (∀ x, x ∈ w → x ≠ .head i) → w.length < fuel →
      ∃ r, bget_scan_bucket s i fuel (s.prev a) acc = .ok r ∧ r.1 ≤ acc.1 ∧
        (r = acc ∨ r.2 ∈ w) ∧ (∀ x, x ∈ w → s.refcnt x = 0 → r.1 ≤ s.time_stamp x) := by
  intro w
  induction w with
  | nil =>
    intro a fuel acc h _ hf
    cases fuel with
    | zero => simp at hf
    | succ fuel =>
      refine ⟨acc, ?_, le_refl _, Or.inl rfl, ?_⟩
      · simp [bget_scan_bucket, h.1]
      · intro x hx; simp at hx
  | cons x w ih =>
    intro a fuel acc h hne hf
    cases fuel with
    | zero => simp at hf
    | succ fuel =>
      obtain ⟨h1, _, h3⟩ := h
      have hx : x ≠ .head i := hne x (by simp)
      have hne2 : ∀ y, y ∈ w → y ≠ .head i := fun y hy => hne y (List.mem_cons_of_mem _ hy)
      have hf2 : w.length < fuel := by simpa using hf
      simp only [bget_scan_bucket, h1, if_neg hx]
      by_cases hc : s.refcnt x = 0 ∧ s.time_stamp x < acc.1
      · rw [if_pos hc]
        obtain ⟨r, hr, hle, hmem, hcov⟩ := ih x fuel (s.time_stamp x, x) h3 hne2 hf2
        refine ⟨r, hr, ?_, ?_, ?_⟩
        · exact le_trans hle (le_of_lt hc.2)
        · right
          rcases hmem with hmem | hmem
          · rw [hmem]; simp
          · exact List.mem_cons_of_mem _ hmem
        · intro y hy hy0
          rcases List.mem_cons.mp hy with rfl | hy
          · exact hle
          · exact hcov y hy hy0
      · rw [if_neg hc]
        obtain ⟨r, hr, hle, hmem, hcov⟩ := ih x fuel acc h3 hne2 hf2
        refine ⟨r, hr, hle, ?_, ?_⟩
        · rcases hmem with hmem | hmem
          · left; exact hmem
          · right; exact List.mem_cons_of_mem _ hmem
        · intro y hy hy0
          rcases List.mem_cons.mp hy with rfl | hy
          · have : acc.1 ≤ s.time_stamp y := by
              by_contra hlt
              exact hc ⟨hy0, not_le.mp hlt⟩
            exact le_trans hle this
          · exact hcov y hy hy0

theorem scan_upto_rings {s : State} {L : Nat → List Nat} (R : Rings s.next s.prev L)
    (fuel : Nat) (hf : ∀ k, (L k).length < fuel) :
    ∀ m, m ≤ NUMBUCKET → ∃ r, bget_scan_upto fuel s m = .ok r ∧ r.1 ≤ 0x7fffffff ∧
      (r = (0x7fffffff, .null) ∨ ∃ k i, i ∈ L k ∧ r.2 = .bufs i) ∧
      (∀ k i, k < m → i ∈ L k → s.refcnt (.bufs i) = 0 → r.1 ≤ s.time_stamp (.bufs i)) := by
  intro m
  induction m with
  | zero =>
    intro _
    refine ⟨(0x7fffffff, .null), rfl, le_refl _, Or.inl rfl, ?_⟩
    intro k i hk; omega
  | succ m ih =>
    intro hm
    obtain ⟨acc, hacc, hle, hmem, hcov⟩ := ih (by omega)
    have hseg := seg_reverse _ _ (R.seg m (by omega))
    obtain ⟨r, hr, hle2, hmem2, hcov2⟩ :=
      scan_bucket_seg s m _ (.head m) fuel acc hseg (by simp) (by simpa using hf m)
    refine ⟨r, ?_, le_trans hle2 hle, ?_, ?_⟩
    · rw [bget_scan_upto_succ, hacc]
      exact hr
    · rcases hmem2 with h | h
      · rw [h]; exact hmem
      · right
        simp only [List.mem_reverse, List.mem_map] at h
        obtain ⟨i, hi, e⟩ := h
        exact ⟨m, i, hi, e.symm⟩
    · intro k i hk hi h0
      by_cases hkm : k = m
      · subst hkm
        exact hcov2 _ (by simp; exact hi) h0
      · exact le_trans hle2 (hcov k i (by omega) hi h0)

theorem inv_length_le {NBUF : Nat} {s : State} {L : Nat → List Nat} (I : Inv NBUF s L)
    (k : Nat) : (L k).length ≤ NBUF := by
  have hsub : L k ⊆ List.range NBUF := by
    intro i hi
    exact List.mem_range.mpr ((I.pool i).mpr ⟨k, hi⟩)
  have := ((I.rings.nodup k).subperm hsub).length_le
  simpa using this

/-- In a well-formed cache the eviction scan terminates.  Its result is either
the initial `(0x7fffffff, 0)` or an unused pool buffer with its stamp, and in
both cases `min` is at most the stamp of every unused pool buffer. -/
theorem scan_inv {NBUF : Nat} {s : State} {L : Nat → List Nat} (I : Inv NBUF s L)
    {fuel : Nat} (hf : NBUF < fuel) :
    ∃ r, bget_scan fuel s = .ok r ∧
      ((r = (0x7fffffff, .null)) ∨
        (∃ k i, i ∈ L k ∧ r.2 = .bufs i ∧ s.refcnt (.bufs i) = 0 ∧
          s.time_stamp (.bufs i) = r.1 ∧ r.1 < 0x7fffffff)) ∧
      (∀ i, i < NBUF → s.refcnt (.bufs i) = 0 → r.1 ≤ s.time_stamp (.bufs i)) := by
  have hlen : ∀ k, (L k).length < fuel := fun k => lt_of_le_of_lt (inv_length_le I k) hf
  obtain ⟨r, hr, _, hmem, hcov⟩ := scan_upto_rings I.rings fuel hlen NUMBUCKET (le_refl _)
  refine ⟨r, hr, ?_, ?_⟩
  · rcases scan_upto_sound fuel s _ _ hr with h | ⟨h1, h2, h3⟩
    · left; exact h
    · right
      rcases hmem with h | ⟨k, i, hi, e⟩
      · rw [h] at h3; simp at h3
      · refine ⟨k, i, hi, e, ?_, ?_, h3⟩
        · rw [← e]; exact h1
        · rw [← e]; exact h2
  · intro i hi h0
    obtain ⟨k, hk⟩ := (I.pool i).mp hi
    exact hcov k i (rings_lt I.rings hk) hk h0

/-! ## Recycling a buffer -/

theorem recycle_fields (s : State) (dev blockno : Nat) (v : Ptr) :
    (bget_recycle s dev blockno v).dev = upd s.dev v dev ∧
    (bget_recycle s dev blockno v).blockno = upd s.blockno v blockno ∧
    (bget_recycle s dev blockno v).refcnt = upd s.refcnt v 1 ∧
    (bget_recycle s dev blockno v).valid = upd s.valid v 0 ∧
    (bget_recycle s dev blockno v).time_stamp = upd s.time_stamp v s.ticks ∧
    (bget_recycle s dev blockno v).ticks = s.ticks ∧
    (bget_recycle s dev blockno v).data = s.data ∧
    (bget_recycle s dev blockno v).disk = s.disk := by
  unfold bget_recycle
  dsimp only
  split <;> exact ⟨rfl, rfl, rfl, rfl, rfl, rfl, rfl, rfl⟩

theorem recycle_links_same (s : State) (dev blockno : Nat) (v : Ptr)
    (h : blockno % NUMBUCKET = s.blockno v % NUMBUCKET) :
    (bget_recycle s dev blockno v).next = s.next ∧
    (bget_recycle s dev blockno v).prev = s.prev := by
  unfold bget_recycle
  dsimp only
  rw [if_pos h]
  exact ⟨rfl, rfl⟩

theorem upd_self_val {α : Type} (f : Ptr → α) (a b : Ptr) : upd f a (f b) b = f b := by
  unfold upd
  split <;> rfl

theorem recycle_links_move (s : State) (dev blockno : Nat) (i : Nat)
    (h : ¬ blockno % NUMBUCKET = s.blockno (.bufs i) % NUMBUCKET) :
    (bget_recycle s dev blockno (.bufs i)).next =
      upd (upd (upd s.next (s.prev (.bufs i)) (s.next (.bufs i))) (.bufs i)
        (upd s.next (s.prev (.bufs i)) (s.next (.bufs i)) (.head (blockno % NUMBUCKET))))
        (.head (blockno % NUMBUCKET)) (.bufs i) ∧
    (bget_recycle s dev blockno (.bufs i)).prev =
      upd (upd (upd s.prev (s.next (.bufs i)) (s.prev (.bufs i))) (.bufs i)
        (.head (blockno % NUMBUCKET)))
        (upd s.next (s.prev (.bufs i)) (s.next (.bufs i)) (.head (blockno % NUMBUCKET)))
        (.bufs i) := by
  have hne : Ptr.head (blockno % NUMBUCKET) ≠ Ptr.bufs i := by intro e; cases e
  unfold bget_recycle
  dsimp only
  rw [if_neg h]
  dsimp only
  rw [upd_self_val, upd_ne _ _ hne]
  exact ⟨rfl, rfl⟩

/-- A step that leaves the links and the identities alone keeps the invariant. -/
theorem inv_of_eq {NBUF : Nat} {s s2 : State} {L : Nat → List Nat} (I : Inv NBUF s L)
    (hn : s2.next = s.next) (hp : s2.prev = s.prev) (hd : s2.dev = s.dev)
    (hb : s2.blockno = s.blockno) (ht : ∀ q, s2.time_stamp q ≤ s2.ticks)
    (hv : ∀ q, s2.valid q = 0 ∨ s2.valid q = 1) : Inv NBUF s2 L := by
  refine ⟨?_, I.pool, ht, hv, ?_, ?_⟩
  · rw [hn, hp]; exact I.rings
  · rw [hd, hb]; exact I.uniq
  · rw [hb]; exact I.placed

/-- Recycling an unused pool buffer for a block that is not in the list of its
bucket keeps the invariant.  Every other buffer stays in its list; the recycled
one stays where it is when the old and the new block number agree modulo
`NUMBUCKET`, and goes to the bucket of the new block number otherwise. -/
theorem inv_recycle {NBUF : Nat} {s : State} {L : Nat → List Nat} (I : Inv NBUF s L)
    {i j : Nat} (hi : i ∈ L j) (dev blockno : Nat)
    (hmiss : ∀ x, x ∈ L (blockno % NUMBUCKET) →
      ¬ (s.dev (.bufs x) = dev ∧ s.blockno (.bufs x) = blockno)) :
    ∃ L2, Inv NBUF (bget_recycle s dev blockno (.bufs i)) L2 ∧
      (∀ k x, x ≠ i → (x ∈ L2 k ↔ x ∈ L k)) ∧
      (blockno % NUMBUCKET = s.blockno (.bufs i) % NUMBUCKET → L2 = L) ∧
      (¬ blockno % NUMBUCKET = s.blockno (.bufs i) % NUMBUCKET →
        ∃ rest, L2 (blockno % NUMBUCKET) = i :: rest) := by
  obtain ⟨fd, fb, _, fv, ft, fk, _, _⟩ := recycle_fields s dev blockno (.bufs i)
  have hid : blockno % NUMBUCKET < NUMBUCKET := Nat.mod_lt _ (by decide)
  have hvalid : ∀ q, (bget_recycle s dev blockno (.bufs i)).valid q = 0 ∨
      (bget_recycle s dev blockno (.bufs i)).valid q = 1 := by
    intro q
    rw [fv]
    by_cases hq : q = .bufs i
    · rw [hq, upd_same]; left; rfl
    · rw [upd_ne _ _ hq]; exact I.valid01 q
  have hstamp : ∀ q, (bget_recycle s dev blockno (.bufs i)).time_stamp q ≤
      (bget_recycle s dev blockno (.bufs i)).ticks := by
    intro q
    rw [ft, fk]
    by_cases hq : q = .bufs i
    · rw [hq, upd_same]
    · rw [upd_ne _ _ hq]; exact I.stamp q
  have huniq : ∀ L2 : Nat → List Nat, (∀ k x, x ≠ i → (x ∈ L2 k → x ∈ L k)) →
      ∀ k x y, x ∈ L2 k → y ∈ L2 k →
      (bget_recycle s dev blockno (.bufs i)).dev (.bufs x) =
        (bget_recycle s dev blockno (.bufs i)).dev (.bufs y) →
      (bget_recycle s dev blockno (.bufs i)).blockno (.bufs x) =
        (bget_recycle s dev blockno (.bufs i)).blockno (.bufs y) →
      (bget_recycle s dev blockno (.bufs i)).blockno (.bufs x) % NUMBUCKET = k →
      ((bget_recycle s dev blockno (.bufs i)).dev (.bufs x) ≠ 0 ∨
        (bget_recycle s dev blockno (.bufs i)).blockno (.bufs x) ≠ 0) → x = y := by
    intro L2 hL2 k x y hx hy
    rw [fd, fb]
    intro hd hb hk hnz
    by_cases hxi : x = i
    · by_cases hyi : y = i
      · rw [hxi, hyi]
      · exfalso
        have hyne : Ptr.bufs y ≠ Ptr.bufs i := fun e => hyi (bufs_injective e)
        rw [hxi, upd_same, upd_ne _ _ hyne] at hd hb
        rw [hxi, upd_same] at hk
        have hyL := hL2 k y hyi hy
        rw [← hk] at hyL
        exact hmiss y hyL ⟨hd.symm, hb.symm⟩
    · have hxne : Ptr.bufs x ≠ Ptr.bufs i := fun e => hxi (bufs_injective e)
      rw [upd_ne _ _ hxne] at hk
      rw [upd_ne _ _ hxne, upd_ne _ _ hxne] at hnz
      have hxL := hL2 k x hxi hx
      by_cases hyi : y = i
      · exfalso
        rw [hyi, upd_same, upd_ne _ _ hxne] at hd hb
        rw [hb] at hk
        rw [← hk] at hxL
        exact hmiss x hxL ⟨hd, hb⟩
      · have hyne : Ptr.bufs y ≠ Ptr.bufs i := fun e => hyi (bufs_injective e)
        rw [upd_ne _ _ hxne, upd_ne _ _ hyne] at hd hb
        exact I.uniq k x y hxL (hL2 k y hyi hy) hd hb hk hnz
  have hplaced : ∀ L2 : Nat → List Nat, (∀ k x, x ≠ i → (x ∈ L2 k → x ∈ L k)) →
      (∀ k, i ∈ L2 k → blockno % NUMBUCKET ≠ 0 → blockno % NUMBUCKET = k) →
      ∀ k x, x ∈ L2 k →
      (bget_recycle s dev blockno (.bufs i)).blockno (.bufs x) % NUMBUCKET ≠ 0 →
      (bget_recycle s dev blockno (.bufs i)).blockno (.bufs x) % NUMBUCKET = k := by
    intro L2 hL2 hiL2 k x hx
    rw [fb]
    by_cases hxi : x = i
    · rw [hxi, upd_same]
      rw [hxi] at hx
      exact hiL2 k hx
    · have hxne : Ptr.bufs x ≠ Ptr.bufs i := fun e => hxi (bufs_injective e)
      rw [upd_ne _ _ hxne]
      exact I.placed k x (hL2 k x hxi hx)
  by_cases hsame : blockno % NUMBUCKET = s.blockno (.bufs i) % NUMBUCKET
  · obtain ⟨fn, fp⟩ := recycle_links_same s dev blockno (.bufs i) hsame
    refine ⟨L, ⟨?_, I.pool, hstamp, hvalid, huniq L (fun _ _ _ h => h),
      hplaced L (fun _ _ _ h => h) ?_⟩, fun _ _ _ => Iff.rfl,
      fun _ => rfl, fun h => absurd hsame h⟩
    · rw [fn, fp]; exact I.rings
    · intro k hk hnz
      have hkj : k = j := I.rings.disj _ _ _ hk hi
      rw [hkj, hsame]
      rw [hsame] at hnz
      exact I.placed j i hi hnz
  · obtain ⟨fn, fp⟩ := recycle_links_move s dev blockno i hsame
    have R1 := rings_unlink I.rings hi
    have hfresh : ∀ k, i ∉ (if k = j then (L j).erase i else L k) := by
      intro k hk
      exact ((rings_unlink_mem I.rings hi k i).mp hk).2 rfl
    have R2 := rings_push R1 hfresh hid
    have hmem : ∀ k x, x ≠ i →
        (x ∈ (if k = blockno % NUMBUCKET then
            i :: (if blockno % NUMBUCKET = j then (L j).erase i else L (blockno % NUMBUCKET))
          else (if k = j then (L j).erase i else L k)) ↔ x ∈ L k) := by
      intro k x hx
      by_cases hk : k = blockno % NUMBUCKET
      · subst hk
        simp only [if_true, List.mem_cons]
        rw [rings_unlink_mem I.rings hi]
        tauto
      · simp only [if_neg hk]
        rw [rings_unlink_mem I.rings hi]
        tauto
    refine ⟨_, ⟨?_, ?_, hstamp, hvalid, huniq _ (fun k x hx h => (hmem k x hx).mp h),
      hplaced _ (fun k x hx h => (hmem k x hx).mp h) ?_⟩, hmem,
      fun h => absurd h hsame, fun _ => ⟨_, if_pos rfl⟩⟩
    · rw [fn, fp]; exact R2
    · intro x
      by_cases hx : x = i
      · subst hx
        constructor
        · intro _
          exact ⟨blockno % NUMBUCKET, by simp⟩
        · intro _
          exact (I.pool x).mpr ⟨j, hi⟩
      · rw [I.pool x]
        constructor
        · rintro ⟨k, hk⟩
          exact ⟨k, (hmem k x hx).mpr hk⟩
        · rintro ⟨k, hk⟩
          exact ⟨k, (hmem k x hx).mp hk⟩
    · intro k hk _
      by_cases hkb : k = blockno % NUMBUCKET
      · exact hkb.symm
      · simp only [if_neg hkb] at hk
        exact absurd hk (hfresh k)

/-! ## `bget`: case analysis and fuel -/

theorem bget_of_hit {fuel : Nat} {s : State} {dev blockno : Nat} {b : Ptr}
    (h : bget_find s (blockno % NUMBUCKET) dev blockno fuel
      (s.next (.head (blockno % NUMBUCKET))) = .ok (some b)) :
    bget fuel s dev blockno = .ok (bget_hit s b, b) := by
  unfold bget
  simp only [h]

theorem bget_of_miss {fuel : Nat} {s : State} {dev blockno : Nat} {r : Nat × Ptr}
    (h : bget_find s (blockno % NUMBUCKET) dev blockno fuel
      (s.next (.head (blockno % NUMBUCKET))) = .ok none)
    (hr : bget_scan fuel s = .ok r) :
    bget fuel s dev blockno =
      if r.2 ≠ .null then .ok (bget_recycle s dev blockno r.2, r.2)
      else .panic "bget: no buffers" := by
  unfold bget
  simp only [h, hr]

/-- The two ways in which `bget` returns a buffer. -/
theorem bget_ok_cases {fuel : Nat} {s s2 : State} {dev blockno : Nat} {b : Ptr}
    (h : bget fuel s dev blockno = .ok (s2, b)) :
    (bget_find s (blockno % NUMBUCKET) dev blockno fuel
        (s.next (.head (blockno % NUMBUCKET))) = .ok (some b) ∧ s2 = bget_hit s b) ∨
    (bget_find s (blockno % NUMBUCKET) dev blockno fuel
        (s.next (.head (blockno % NUMBUCKET))) = .ok none ∧
      (∃ m, bget_scan fuel s = .ok (m, b)) ∧ b ≠ .null ∧
      s2 = bget_recycle s dev blockno b) := by
  cases hf : bget_find s (blockno % NUMBUCKET) dev blockno fuel
      (s.next (.head (blockno % NUMBUCKET))) with
  | timeout => unfold bget at h; simp only [hf] at h; cases h
  | panic msg => unfold bget at h; simp only [hf] at h; cases h
  | ok x =>
    cases x with
    | some c =>
      rw [bget_of_hit hf] at h
      cases h
      left; exact ⟨rfl, rfl⟩
    | none =>
      cases hr : bget_scan fuel s with
      | timeout => unfold bget at h; simp only [hf, hr] at h; cases h
      | panic msg => unfold bget at h; simp only [hf, hr] at h; cases h
      | ok r =>
        rw [bget_of_miss hf hr] at h
        by_cases hn : r.2 ≠ .null
        · rw [if_pos hn] at h
          cases h
          right
          exact ⟨rfl, ⟨r.1, rfl⟩, hn, rfl⟩
        · rw [if_neg hn] at h
          cases h

theorem bget_find_mono (s : State) (id dev blockno : Nat) :
    ∀ (fuel : Nat) (b : Ptr) (r : Option Ptr), bget_find s id dev blockno fuel b = .ok r →
      ∀ fuel2, fuel ≤ fuel2 → bget_find s id dev blockno fuel2 b = .ok r := by
  intro fuel
  induction fuel with
  | zero => intro b r h; simp [bget_find] at h
  | succ fuel ih =>
    intro b r h fuel2 hle
    cases fuel2 with
    | zero => omega
    | succ fuel2 =>
      simp only [bget_find] at h ⊢
      split
      · rename_i hb; rw [if_pos hb] at h; exact h
      · rename_i hb
        rw [if_neg hb] at h
        split
        · rename_i hc; rw [if_pos hc] at h; exact h
        · rename_i hc
          rw [if_neg hc] at h
          exact ih _ _ h _ (by omega)

theorem scan_bucket_mono (s : State) (i : Nat) :
    ∀ (fuel : Nat) (b : Ptr) (acc r : Nat × Ptr), bget_scan_bucket s i fuel b acc = .ok r →
      ∀ fuel2, fuel ≤ fuel2 → bget_scan_bucket s i fuel2 b acc = .ok r := by
  intro fuel
  induction fuel with
  | zero => intro b acc r h; simp [bget_scan_bucket] at h
  | succ fuel ih =>
    intro b acc r h fuel2 hle
    cases fuel2 with
    | zero => omega
    | succ fuel2 =>
      simp only [bget_scan_bucket] at h ⊢
      split
      · rename_i hb; rw [if_pos hb] at h; exact h
      · rename_i hb
        rw [if_neg hb] at h
        split
        · rename_i hc; rw [if_pos hc] at h; exact ih _ _ _ h _ (by omega)
        · rename_i hc
          rw [if_neg hc] at h
          exact ih _ _ _ h _ (by omega)

theorem scan_upto_mono (s : State) {fuel fuel2 : Nat} (hle : fuel ≤ fuel2) :
    ∀ (m : Nat) (r : Nat × Ptr), bget_scan_upto fuel s m = .ok r →
      bget_scan_upto fuel2 s m = .ok r := by
  intro m
  induction m with
  | zero => intro r h; exact h
  | succ m ih =>
    intro r h
    rw [bget_scan_upto_succ] at h ⊢
    cases hm : bget_scan_upto fuel s m with
    | timeout => rw [hm] at h; simp [Result.bind] at h
    | panic msg => rw [hm] at h; simp [Result.bind] at h
    | ok acc =>
      rw [hm] at h
      rw [ih _ hm]
      simp only [Result.bind] at h ⊢
      exact scan_bucket_mono s m _ _ _ _ h _ hle

/-- More fuel does not change a result of `bget`. -/
theorem bget_mono {fuel fuel2 : Nat} {s s2 : State} {dev blockno : Nat} {b : Ptr}
    (h : bget fuel s dev blockno = .ok (s2, b)) (hle : fuel ≤ fuel2) :
    bget fuel2 s dev blockno = .ok (s2, b) := by
  rcases bget_ok_cases h with ⟨h1, h2⟩ | ⟨h1, ⟨m, h2⟩, h3, h4⟩
  · rw [bget_of_hit (bget_find_mono _ _ _ _ _ _ _ h1 _ hle), h2]
  · rw [bget_of_miss (bget_find_mono _ _ _ _ _ _ _ h1 _ hle)
      (scan_upto_mono s hle _ _ h2), if_pos h3, h4]

/-- Behaviour of `bget` in a well-formed cache, given fuel for the whole pool:
a hit on a buffer of the bucket, or a miss that recycles an unused pool buffer of
least stamp below `0x7fffffff`, or a miss that ends fatally because no unused
buffer has a stamp below `0x7fffffff`. -/
theorem bget_spec {NBUF : Nat} {s : State} {L : Nat → List Nat} (I : Inv NBUF s L)
    {fuel : Nat} (hf : NBUF < fuel) (dev blockno : Nat) :
    (∃ i, i ∈ L (blockno % NUMBUCKET) ∧ s.dev (.bufs i) = dev ∧ s.blockno (.bufs i) = blockno ∧
      bget_find s (blockno % NUMBUCKET) dev blockno fuel
        (s.next (.head (blockno % NUMBUCKET))) = .ok (some (.bufs i)) ∧
      bget fuel s dev blockno = .ok (bget_hit s (.bufs i), .bufs i)) ∨
    ((∀ x, x ∈ L (blockno % NUMBUCKET) →
        ¬ (s.dev (.bufs x) = dev ∧ s.blockno (.bufs x) = blockno)) ∧
      bget_find s (blockno % NUMBUCKET) dev blockno fuel
        (s.next (.head (blockno % NUMBUCKET))) = .ok none ∧
      ((bget fuel s dev blockno = .panic "bget: no buffers" ∧
          ∀ i, i < NBUF → s.refcnt (.bufs i) = 0 → 0x7fffffff ≤ s.time_stamp (.bufs i)) ∨
        (∃ j i, i ∈ L j ∧ s.refcnt (.bufs i) = 0 ∧ s.time_stamp (.bufs i) < 0x7fffffff ∧
          (∀ x, x < NBUF → s.refcnt (.bufs x) = 0 →
            s.time_stamp (.bufs i) ≤ s.time_stamp (.bufs x)) ∧
          bget fuel s dev blockno = .ok (bget_recycle s dev blockno (.bufs i), .bufs i)))) := by
  have hid : blockno % NUMBUCKET < NUMBUCKET := Nat.mod_lt _ (by decide)
  have hlen : (L (blockno % NUMBUCKET)).length < fuel :=
    lt_of_le_of_lt (inv_length_le I _) hf
  have hfind := bget_find_seg s (blockno % NUMBUCKET) dev blockno _ _ fuel
    (I.rings.seg _ hid) hlen
  cases hx : (L (blockno % NUMBUCKET)).find?
      (fun i => decide (s.dev (.bufs i) = dev ∧ s.blockno (.bufs i) = blockno)) with
  | some i =>
    left
    rw [hx] at hfind
    have h1 := List.find?_some hx
    simp only [decide_eq_true_eq] at h1
    exact ⟨i, List.mem_of_find?_eq_some hx, h1.1, h1.2, hfind, bget_of_hit hfind⟩
  | none =>
    right
    rw [hx] at hfind
    have hnone : ∀ x, x ∈ L (blockno % NUMBUCKET) →
        ¬ (s.dev (.bufs x) = dev ∧ s.blockno (.bufs x) = blockno) := by
      intro x hxm
      have := List.find?_eq_none.mp hx x hxm
      simpa using this
    refine ⟨hnone, hfind, ?_⟩
    obtain ⟨r, hr, hcase, hcov⟩ := scan_inv I hf
    rcases hcase with h | ⟨j, i, hi, e, h0, hts, hlt⟩
    · left
      refine ⟨?_, ?_⟩
      · rw [bget_of_miss hfind hr, h]
        simp
      · intro i hi h0
        have := hcov i hi h0
        rw [h] at this
        exact this
    · right
      refine ⟨j, i, hi, h0, by rw [hts]; exact hlt, ?_, ?_⟩
      · intro x hx hx0
        rw [hts]
        exact hcov x hx hx0
      · rw [bget_of_miss hfind hr, e, if_pos (by intro e2; cases e2)]

/-! ## The invariant holds in every reachable state -/

theorem hit_inv {NBUF : Nat} {s : State} {L : Nat → List Nat} (I : Inv NBUF s L) (b : Ptr) :
    Inv NBUF (bget_hit s b) L := by
  refine inv_of_eq I rfl rfl rfl rfl ?_ I.valid01
  intro q
  show upd s.time_stamp b s.ticks q ≤ s.ticks
  by_cases hq : q = b
  · rw [hq, upd_same]
  · rw [upd_ne _ _ hq]; exact I.stamp q

/-- The routine `bget` keeps the invariant and returns a pool buffer. -/
theorem bget_inv {NBUF : Nat} {s s2 : State} {L : Nat → List Nat} (I : Inv NBUF s L)
    {fuel dev blockno : Nat} {b : Ptr} (h : bget fuel s dev blockno = .ok (s2, b)) :
    ∃ L2, Inv NBUF s2 L2 ∧ ∃ i, i < NBUF ∧ b = .bufs i := by
  have h2 := bget_mono h (le_max_left fuel (NBUF + 1))
  have hf : NBUF < max fuel (NBUF + 1) := lt_of_lt_of_le (Nat.lt_succ_self _) (le_max_right _ _)
  rcases bget_spec I hf dev blockno with ⟨i, hi, _, _, _, hb⟩ |
      ⟨hmiss, _, ⟨hb, _⟩ | ⟨j, i, hi, _, _, _, hb⟩⟩
  · rw [hb] at h2
    cases h2
    exact ⟨L, hit_inv I _, i, (I.pool i).mpr ⟨_, hi⟩, rfl⟩
  · rw [hb] at h2
    cases h2
  · rw [hb] at h2
    cases h2
    obtain ⟨L2, I2, _⟩ := inv_recycle I hi dev blockno hmiss
    exact ⟨L2, I2, i, (I.pool i).mpr ⟨_, hi⟩, rfl⟩

theorem bread_inv {NBUF : Nat} {s s2 : State} {L : Nat → List Nat} (I : Inv NBUF s L)
    {fuel dev blockno : Nat} {b : Ptr} (h : bread fuel s dev blockno = .ok (s2, b)) :
    ∃ L2, Inv NBUF s2 L2 ∧ ∃ i, i < NBUF ∧ b = .bufs i := by
  unfold bread at h
  cases hg : bget fuel s dev blockno with
  | timeout => simp only [hg] at h; cases h
  | panic msg => simp only [hg] at h; cases h
  | ok x =>
    obtain ⟨s1, b1⟩ := x
    simp only [hg] at h
    obtain ⟨L2, I2, hb⟩ := bget_inv I hg
    split at h
    · have hv : ∀ q, upd s1.valid b1 1 q = 0 ∨ upd s1.valid b1 1 q = 1 := by
        intro q
        by_cases hq : q = b1
        · rw [hq, upd_same]; right; rfl
        · rw [upd_ne _ _ hq]; exact I2.valid01 q
      cases h
      exact ⟨L2, inv_of_eq I2 rfl rfl rfl rfl I2.stamp hv, hb⟩
    · cases h
      exact ⟨L2, I2, hb⟩

/-- Every reachable state is well formed: the buckets are rings that partition
the pool. -/
theorem reachable_inv {NBUF : Nat} {s : State} (h : Reachable NBUF s) :
    ∃ L, Inv NBUF s L := by
  induction h with
  | init disk =>
    obtain ⟨L, I, _⟩ := binit_inv NBUF disk
    exact ⟨L, I⟩
  | tick s t _ hle ih =>
    obtain ⟨L, I⟩ := ih
    exact ⟨L, inv_of_eq I rfl rfl rfl rfl (fun q => le_trans (I.stamp q) hle) I.valid01⟩
  | bget s s2 fuel dev blockno b _ hb ih =>
    obtain ⟨L, I⟩ := ih
    obtain ⟨L2, I2, _⟩ := bget_inv I hb
    exact ⟨L2, I2⟩
  | bread s s2 fuel dev blockno b _ hb ih =>
    obtain ⟨L, I⟩ := ih
    obtain ⟨L2, I2, _⟩ := bread_inv I hb
    exact ⟨L2, I2⟩
  | bwrite s s2 holding i _ _ hb ih =>
    obtain ⟨L, I⟩ := ih
    unfold bwrite at hb
    split at hb
    · cases hb
    · cases hb
      refine ⟨L, inv_of_eq I ?_ ?_ ?_ ?_ ?_ ?_⟩ <;> simp [virtio_disk_rw, I.stamp, I.valid01]
  | brelse s s2 holding i _ _ hb ih =>
    obtain ⟨L, I⟩ := ih
    unfold brelse at hb
    split at hb
    · cases hb
    · cases hb
      exact ⟨L, inv_of_eq I rfl rfl rfl rfl I.stamp I.valid01⟩
  | bpin s i _ _ ih =>
    obtain ⟨L, I⟩ := ih
    exact ⟨L, inv_of_eq I rfl rfl rfl rfl I.stamp I.valid01⟩
  | bunpin s i _ _ ih =>
    obtain ⟨L, I⟩ := ih
    exact ⟨L, inv_of_eq I rfl rfl rfl rfl I.stamp I.valid01⟩
  | set_data s i d _ _ ih =>
    obtain ⟨L, I⟩ := ih
    exact ⟨L, inv_of_eq I rfl rfl rfl rfl I.stamp I.valid01⟩

/-- A miss of `bget` that returns, in a well-formed cache: the buffer returned
is an unused pool buffer whose stamp is below `0x7fffffff` and least among the
unused buffers of the pool, and the new state is the recycling of that buffer. -/
theorem bget_miss_inv {NBUF : Nat} {s s2 : State} {L : Nat → List Nat} (I : Inv NBUF s L)
    {fuel dev blockno : Nat} {b : Ptr} (h : bget fuel s dev blockno = .ok (s2, b))
    (hm : bget_find s (blockno % NUMBUCKET) dev blockno fuel
      (s.next (.head (blockno % NUMBUCKET))) = .ok none) :
    ∃ j i, b = .bufs i ∧ i ∈ L j ∧
      (∀ x, x ∈ L (blockno % NUMBUCKET) →
        ¬ (s.dev (.bufs x) = dev ∧ s.blockno (.bufs x) = blockno)) ∧
      s.refcnt (.bufs i) = 0 ∧ s.time_stamp (.bufs i) < 0x7fffffff ∧
      (∀ x, x < NBUF → s.refcnt (.bufs x) = 0 →
        s.time_stamp (.bufs i) ≤ s.time_stamp (.bufs x)) ∧
      s2 = bget_recycle s dev blockno (.bufs i) := by
  have h2 := bget_mono h (le_max_left fuel (NBUF + 1))
  have hm2 := bget_find_mono _ _ _ _ _ _ _ hm _ (le_max_left fuel (NBUF + 1))
  have hf : NBUF < max fuel (NBUF + 1) := lt_of_lt_of_le (Nat.lt_succ_self _) (le_max_right _ _)
  rcases bget_spec I hf dev blockno with ⟨i, _, _, _, hfd, _⟩ |
      ⟨hmiss, _, ⟨hb, _⟩ | ⟨j, i, hi, h0, hlt, hmin, hb⟩⟩
  · rw [hfd] at hm2; cases hm2
  · rw [hb] at h2; cases h2
  · rw [hb] at h2
    cases h2
    exact ⟨j, i, rfl, hi, hmiss, h0, hlt, hmin, rfl⟩

/-- A pool buffer is linked in at most one bucket. -/
theorem linked_unique {NBUF : Nat} {s : State} (h : Reachable NBUF s) {k k2 : Nat}
    (hk : k < NUMBUCKET) (hk2 : k2 < NUMBUCKET) {q : Ptr}
    (h1 : Linked s k q) (h2 : Linked s k2 q) : k = k2 := by
  obtain ⟨L, I⟩ := reachable_inv h
  obtain ⟨i, hi, e⟩ := (linked_iff I.rings hk q).mp h1
  obtain ⟨i2, hi2, e2⟩ := (linked_iff I.rings hk2 q).mp h2
  rw [e] at e2
  cases e2
  exact I.rings.disj _ _ _ hi hi2

/-- Whatever the state, a buffer returned by `bget` on a miss had `refcnt == 0`. -/
theorem bget_miss_unused {fuel : Nat} {s s2 : State} {dev blockno : Nat} {b : Ptr}
    (h : bget fuel s dev blockno = .ok (s2, b))
    (hm : bget_find s (blockno % NUMBUCKET) dev blockno fuel
      (s.next (.head (blockno % NUMBUCKET))) = .ok none) : s.refcnt b = 0 := by
  rcases bget_ok_cases h with ⟨h1, _⟩ | ⟨_, ⟨m, h2⟩, h3, _⟩
  · rw [h1] at hm; cases hm
  · rcases scan_upto_sound fuel s _ _ h2 with e | ⟨e, _, _⟩
    · cases e; exact absurd rfl h3
    · exact e

/-! ## Runs -/

theorem exec_reachable {NBUF fuel : Nat} {x y : State × Ptr} {c : Call}
    (hx : Reachable NBUF x.1) (h : exec NBUF fuel x c = some y) : Reachable NBUF y.1 := by
  cases c with
  | tick t =>
    simp only [exec] at h
    split at h
    · cases h; exact Reachable.tick _ _ hx (by assumption)
    · cases h
  | bget dev blockno =>
    simp only [exec] at h
    cases hb : bget fuel x.1 dev blockno with
    | timeout => rw [hb] at h; cases h
    | panic m => rw [hb] at h; cases h
    | ok r =>
      rw [hb] at h
      cases h
      exact Reachable.bget _ _ _ _ _ _ hx hb
  | bread dev blockno =>
    simp only [exec] at h
    cases hb : bread fuel x.1 dev blockno with
    | timeout => rw [hb] at h; cases h
    | panic m => rw [hb] at h; cases h
    | ok r =>
      rw [hb] at h
      cases h
      exact Reachable.bread _ _ _ _ _ _ hx hb
  | bwrite i =>
    simp only [exec] at h
    split at h
    · rename_i hi
      cases hb : bwrite true x.1 (.bufs i) with
      | timeout => rw [hb] at h; cases h
      | panic m => rw [hb] at h; cases h
      | ok r =>
        rw [hb] at h
        cases h
        exact Reachable.bwrite _ _ _ _ hx hi hb
    · cases h
  | brelse i =>
    simp only [exec] at h
    split at h
    · rename_i hi
      cases hb : brelse true x.1 (.bufs i) with
      | timeout => rw [hb] at h; cases h
      | panic m => rw [hb] at h; cases h
      | ok r =>
        rw [hb] at h
        cases h
        exact Reachable.brelse _ _ _ _ hx hi hb
    · cases h
  | bpin i =>
    simp only [exec] at h
    split at h
    · cases h; exact Reachable.bpin _ _ hx (by assumption)
    · cases h
  | bunpin i =>
    simp only [exec] at h
    split at h
    · cases h; exact Reachable.bunpin _ _ hx (by assumption)
    · cases h
  | set_data i d =>
    simp only [exec] at h
    split at h
    · cases h; exact Reachable.set_data _ _ _ hx (by assumption)
    · cases h

theorem exec_all_reachable {NBUF fuel : Nat} :
    ∀ (cs : List Call) (x y : State × Ptr), Reachable NBUF x.1 →
      exec_all NBUF fuel x cs = some y → Reachable NBUF y.1 := by
  intro cs
  induction cs with
  | nil => intro x y hx h; cases h; exact hx
  | cons c cs ih =>
    intro x y hx h
    simp only [exec_all] at h
    cases hc : exec NBUF fuel x c with
    | none => rw [hc] at h; cases h
    | some z =>
      rw [hc] at h
      exact ih z y (exec_reachable hx hc) h

/-- The state after a run from `binit` is reachable. -/
theorem after_reachable (NBUF : Nat) (cs : List Call) : Reachable NBUF (after NBUF cs) := by
  unfold after
  cases h : exec_all NBUF (NBUF + 1) (binit NBUF (boot (fun _ _ => [])), .null) cs with
  | none => exact Reachable.init _
  | some y => exact exec_all_reachable cs _ y (Reachable.init _) h

theorem bget_of_buf {fuel : Nat} {s : State} {dev blockno : Nat} {b : Ptr}
    (h : bget_buf fuel s dev blockno = some b) :
    bget fuel s dev blockno = .ok (bget_state fuel s dev blockno, b) := by
  unfold bget_buf at h
  unfold bget_state
  cases hb : bget fuel s dev blockno with
  | timeout => rw [hb] at h; cases h
  | panic m => rw [hb] at h; cases h
  | ok r =>
    rw [hb] at h
    simp only [Result.toOption, Option.map_some', Option.some.injEq] at h
    simp only [Result.toOption, Option.map_some', Option.getD_some]
    rw [← h]

theorem result_of_msg {α : Type} {r : Result α} {m : String} (h : r.msg = some m) :
    r = .panic m := by
  cases r with
  | ok a => cases h
  | timeout => cases h
  | panic m2 => simp only [Result.msg, Option.some.injEq] at h; rw [h]

/-! ## C1 -/

/-- C1 (the code departs from the claim).  With 30 buffers, after `binit` and
`bget(1,1)`, `bget(1,2)`, `bget(1,3)`, the call `bget(1,13)` returns `bufs[1]`,
and the same call made again at once is not a hit: it returns `bufs[14]`, which
it recycles from identity `(0,0)` to `(1,13)`, and leaves the `refcnt` of `bufs[1]`
at 1. -/
theorem bget_twice_returns_two_buffers :
    ∃ s s1 s2, Reachable 30 s ∧
      bget 31 s 1 13 = .ok (s1, .bufs 1) ∧ bget 31 s1 1 13 = .ok (s2, .bufs 14) ∧
      s1.refcnt (.bufs 1) = 1 ∧ s2.refcnt (.bufs 1) = 1 ∧
      s1.dev (.bufs 14) = 0 ∧ s1.blockno (.bufs 14) = 0 ∧
      s2.dev (.bufs 14) = 1 ∧ s2.blockno (.bufs 14) = 13 := by
  refine ⟨after 30 [.bget 1 1, .bget 1 2, .bget 1 3],
    bget_state 31 (after 30 [.bget 1 1, .bget 1 2, .bget 1 3]) 1 13,
    bget_state 31 (bget_state 31 (after 30 [.bget 1 1, .bget 1 2, .bget 1 3]) 1 13) 1 13,
    after_reachable _ _, bget_of_buf (by decide), bget_of_buf (by decide),
    by decide, by decide, by decide, by decide, by decide, by decide⟩

/-! ## C2 -/

/-- C2 (the claim fails as stated).  With 30 buffers, right after `binit` the
buffers `bufs[0]` and `bufs[1]` both have `dev == 0` and `blockno == 0`; and after
`bget(1,1)`, `bget(1,2)`, `bget(1,3)`, `bget(1,13)`, `bget(1,13)` the buffers `bufs[1]`
and `bufs[14]` both have `dev == 1` and `blockno == 13`, neither being linked in
bucket `13 % 13 = 0`. -/
theorem two_buffers_one_identity :
    Reachable 30 (after 30 []) ∧
    (after 30 []).dev (.bufs 0) = 0 ∧ (after 30 []).blockno (.bufs 0) = 0 ∧
    (after 30 []).dev (.bufs 1) = 0 ∧ (after 30 []).blockno (.bufs 1) = 0 ∧
    Reachable 30 (after 30 [.bget 1 1, .bget 1 2, .bget 1 3, .bget 1 13, .bget 1 13]) ∧
    (after 30 [.bget 1 1, .bget 1 2, .bget 1 3, .bget 1 13, .bget 1 13]).dev (.bufs 1) = 1 ∧
    (after 30 [.bget 1 1, .bget 1 2, .bget 1 3, .bget 1 13, .bget 1 13]).blockno (.bufs 1) = 13 ∧
    (after 30 [.bget 1 1, .bget 1 2, .bget 1 3, .bget 1 13, .bget 1 13]).dev (.bufs 14) = 1 ∧
    (after 30 [.bget 1 1, .bget 1 2, .bget 1 3, .bget 1 13, .bget 1 13]).blockno (.bufs 14) = 13 ∧
    bucket_list 31 (after 30 [.bget 1 1, .bget 1 2, .bget 1 3, .bget 1 13, .bget 1 13]) 0 = [] ∧
    bucket_list 31 (after 30 [.bget 1 1, .bget 1 2, .bget 1 3, .bget 1 13, .bget 1 13]) 1 =
      [.bufs 0, .bufs 27, .bufs 14, .bufs 1] := by
  refine ⟨after_reachable _ _, by decide, by decide, by decide, by decide,
    after_reachable _ _, by decide, by decide, by decide, by decide, by decide, by decide⟩

/-- C2 (amended).  In every reachable state, for every `(dev, blockno)` whose
`blockno` is not a multiple of `NUMBUCKET`, at most one buffer of the pool
`bufs[0..NBUF)` has that `dev` and that `blockno`; and for every `(dev, blockno)`
other than `(0, 0)`, at most one buffer linked in the list of bucket
`blockno % NUMBUCKET` has that `dev` and that `blockno`. -/
theorem one_copy_per_block (NBUF : Nat) (s : State) (h : Reachable NBUF s)
    (dev blockno i j : Nat)
    (hdi : s.dev (.bufs i) = dev) (hbi : s.blockno (.bufs i) = blockno)
    (hdj : s.dev (.bufs j) = dev) (hbj : s.blockno (.bufs j) = blockno) :
    (blockno % NUMBUCKET ≠ 0 → i < NBUF → j < NBUF → i = j) ∧
    ((dev ≠ 0 ∨ blockno ≠ 0) → Linked s (blockno % NUMBUCKET) (.bufs i) →
      Linked s (blockno % NUMBUCKET) (.bufs j) → i = j) := by
  obtain ⟨L, I⟩ := reachable_inv h
  have hk : blockno % NUMBUCKET < NUMBUCKET := Nat.mod_lt _ (by decide)
  have key : ∀ k, i ∈ L k → j ∈ L k → blockno % NUMBUCKET = k →
      (dev ≠ 0 ∨ blockno ≠ 0) → i = j := by
    intro k hi2 hj2 hkk hnz
    refine I.uniq k i j hi2 hj2 (by rw [hdi, hdj]) (by rw [hbi, hbj]) (by rw [hbi]; exact hkk) ?_
    rw [hdi, hbi]; exact hnz
  constructor
  · intro hnz hi hj
    obtain ⟨ki, hki⟩ := (I.pool i).mp hi
    obtain ⟨kj, hkj⟩ := (I.pool j).mp hj
    have e1 := I.placed ki i hki (by rw [hbi]; exact hnz)
    have e2 := I.placed kj j hkj (by rw [hbj]; exact hnz)
    rw [hbi] at e1
    rw [hbj] at e2
    rw [← e1] at hki
    rw [← e2] at hkj
    refine key _ hki hkj rfl (Or.inr ?_)
    intro e0
    rw [e0] at hnz
    exact hnz (Nat.zero_mod _)
  · intro hnz hi hj
    obtain ⟨i2, hi2, e⟩ := (linked_iff I.rings hk _).mp hi
    obtain ⟨j2, hj2, e2⟩ := (linked_iff I.rings hk _).mp hj
    cases e
    cases e2
    exact key _ hi2 hj2 rfl hnz

/-- Instance of the theorem above: after `binit` and `bget(1,1)` on 30 buffers,
`bufs[0]` is the one buffer of the pool, and of bucket 1, that holds block
`(1, 1)`. -/
theorem one_copy_per_block_witness :
    (after 30 [.bget 1 1]).dev (.bufs 0) = 1 ∧ (after 30 [.bget 1 1]).blockno (.bufs 0) = 1 ∧
    1 % NUMBUCKET ≠ 0 ∧ Linked (after 30 [.bget 1 1]) (1 % NUMBUCKET) (.bufs 0) ∧
    (0 : Nat) = 0 ∧ (0 : Nat) = 0 :=
  ⟨by decide, by decide, by decide, ⟨31, by decide⟩,
    (one_copy_per_block 30 (after 30 [.bget 1 1]) (after_reachable _ _) 1 1 0 0
      (by decide) (by decide) (by decide) (by decide)).1 (by decide) (by decide) (by decide),
    (one_copy_per_block 30 (after 30 [.bget 1 1]) (after_reachable _ _) 1 1 0 0
      (by decide) (by decide) (by decide) (by decide)).2 (Or.inl (by decide))
      ⟨31, by decide⟩ ⟨31, by decide⟩⟩

/-! ## C3 -/

/-- C3 (the claim fails as stated).  With 30 buffers, right after `binit` the
buffer `bufs[1]` has `blockno == 0` and is linked in bucket 1, not in bucket
`0 % 13 = 0`.  After `bget(1,1)`, `bget(1,2)`, `bget(1,3)` the call `bget(1,13)` is a
miss that changes the `blockno` of `bufs[1]` from 0 to 13 and leaves it linked in
bucket 1, not in bucket `13 % 13 = 0`. -/
theorem buffer_outside_bucket_of_blockno :
    Reachable 30 (after 30 []) ∧
    (after 30 []).blockno (.bufs 1) % NUMBUCKET = 0 ∧
    Linked (after 30 []) 1 (.bufs 1) ∧ ¬ Linked (after 30 []) 0 (.bufs 1) ∧
    ∃ s s1, Reachable 30 s ∧ Reachable 30 s1 ∧
      bget_find s (13 % NUMBUCKET) 1 13 31 (s.next (.head (13 % NUMBUCKET))) = .ok none ∧
      bget 31 s 1 13 = .ok (s1, .bufs 1) ∧
      s.blockno (.bufs 1) = 0 ∧ s1.blockno (.bufs 1) = 13 ∧
      Linked s1 1 (.bufs 1) ∧ ¬ Linked s1 0 (.bufs 1) := by
  have h0 : Linked (after 30 []) 1 (.bufs 1) := ⟨31, by decide⟩
  have h1 : Linked (after 30 [.bget 1 1, .bget 1 2, .bget 1 3, .bget 1 13]) 1 (.bufs 1) :=
    ⟨31, by decide⟩
  have hb : bget 31 (after 30 [.bget 1 1, .bget 1 2, .bget 1 3]) 1 13 =
      .ok (after 30 [.bget 1 1, .bget 1 2, .bget 1 3, .bget 1 13], .bufs 1) := by
    have := bget_of_buf (show bget_buf 31 (after 30 [.bget 1 1, .bget 1 2, .bget 1 3]) 1 13 =
      some (.bufs 1) by decide)
    rw [this]
    rfl
  refine ⟨after_reachable _ _, by decide, h0, ?_,
    after 30 [.bget 1 1, .bget 1 2, .bget 1 3],
    after 30 [.bget 1 1, .bget 1 2, .bget 1 3, .bget 1 13],
    after_reachable _ _, after_reachable _ _, by decide, hb, by decide, by decide, h1, ?_⟩
  · intro h
    have := linked_unique (after_reachable 30 []) (by decide) (by decide) h0 h
    exact absurd this (by decide)
  · intro h
    have := linked_unique (after_reachable 30 _) (by decide) (by decide) h1 h
    exact absurd this (by decide)

/-- C3 (amended).  In every reachable state, every pool buffer whose `blockno`
is not a multiple of `NUMBUCKET` is linked in the list of bucket
`blockno % NUMBUCKET`.  `binit` links buffer `i` in the list of bucket
`i % NUMBUCKET`, all block numbers being 0.  A miss of `bget` that returns buffer
`b` gives `b` the requested `blockno` and leaves `b` linked in bucket
`blockno % NUMBUCKET` whenever `blockno` is not a multiple of `NUMBUCKET`, or the
old and the new block number of `b` differ modulo `NUMBUCKET`, or `b` was linked in
the bucket of its old block number; every other buffer stays in the list it was
in. -/
theorem buffer_in_bucket_of_blockno (NBUF : Nat) :
    (∀ s, Reachable NBUF s → ∀ i, i < NBUF → s.blockno (.bufs i) % NUMBUCKET ≠ 0 →
      Linked s (s.blockno (.bufs i) % NUMBUCKET) (.bufs i)) ∧
    (∀ disk i, i < NBUF → Linked (binit NBUF (boot disk)) (i % NUMBUCKET) (.bufs i)) ∧
    (∀ s, Reachable NBUF s → ∀ fuel dev blockno s2 b,
      bget fuel s dev blockno = .ok (s2, b) →
      bget_find s (blockno % NUMBUCKET) dev blockno fuel
        (s.next (.head (blockno % NUMBUCKET))) = .ok none →
      s2.blockno b = blockno ∧
      ((blockno % NUMBUCKET ≠ 0 ∨ s.blockno b % NUMBUCKET ≠ blockno % NUMBUCKET ∨
          Linked s (s.blockno b % NUMBUCKET) b) →
        Linked s2 (blockno % NUMBUCKET) b) ∧
      (∀ q k, q ≠ b → k < NUMBUCKET → (Linked s2 k q ↔ Linked s k q))) := by
  have hmod : ∀ n : Nat, n % NUMBUCKET < NUMBUCKET := fun n => Nat.mod_lt _ (by decide)
  have hinv : ∀ s, Reachable NBUF s → ∀ i, i < NBUF → s.blockno (.bufs i) % NUMBUCKET ≠ 0 →
      Linked s (s.blockno (.bufs i) % NUMBUCKET) (.bufs i) := by
    intro s hs i hi hnz
    obtain ⟨L, I⟩ := reachable_inv hs
    obtain ⟨k, hk⟩ := (I.pool i).mp hi
    have e := I.placed k i hk hnz
    rw [e]
    exact (linked_iff I.rings (rings_lt I.rings hk) _).mpr ⟨i, hk, rfl⟩
  refine ⟨hinv, ?_, ?_⟩
  · intro disk i hi
    obtain ⟨L, I, hplace⟩ := binit_inv NBUF disk
    obtain ⟨k, hk⟩ := (I.pool i).mp hi
    have := hplace k i hk
    rw [this]
    exact (linked_iff I.rings (rings_lt I.rings hk) _).mpr ⟨i, hk, rfl⟩
  · intro s hs fuel dev blockno s2 b hb hm
    obtain ⟨L, I⟩ := reachable_inv hs
    obtain ⟨j, i, e, hi, hmiss, _, _, _, e2⟩ := bget_miss_inv I hb hm
    subst e e2
    obtain ⟨L2, I2, hmem, hsame, hmove⟩ := inv_recycle I hi dev blockno hmiss
    obtain ⟨_, fb, _⟩ := recycle_fields s dev blockno (.bufs i)
    have hlinked : i ∈ L (s.blockno (.bufs i) % NUMBUCKET) →
        blockno % NUMBUCKET = s.blockno (.bufs i) % NUMBUCKET →
        Linked (bget_recycle s dev blockno (.bufs i)) (blockno % NUMBUCKET) (.bufs i) := by
      intro hx hsm
      refine (linked_iff I2.rings (hmod _) _).mpr ⟨i, ?_, rfl⟩
      rw [hsame hsm, hsm]
      exact hx
    refine ⟨by rw [fb, upd_same], ?_, ?_⟩
    · intro hcase
      by_cases hsm : blockno % NUMBUCKET = s.blockno (.bufs i) % NUMBUCKET
      · rcases hcase with hcase | hcase | hcase
        · have hold : s.blockno (.bufs i) % NUMBUCKET ≠ 0 := by rw [← hsm]; exact hcase
          have e := I.placed j i hi hold
          rw [← e] at hi
          exact hlinked hi hsm
        · exact absurd hsm.symm hcase
        · obtain ⟨x, hx, e⟩ := (linked_iff I.rings (hmod _) _).mp hcase
          cases e
          exact hlinked hx hsm
      · obtain ⟨rest, hrest⟩ := hmove hsm
        refine (linked_iff I2.rings (hmod _) _).mpr ⟨i, ?_, rfl⟩
        rw [hrest]
        simp
    · intro q k hq hk
      rw [linked_iff I2.rings hk, linked_iff I.rings hk]
      constructor
      · rintro ⟨x, hx, e⟩
        have hxi : x ≠ i := by rintro rfl; exact hq e
        exact ⟨x, (hmem k x hxi).mp hx, e⟩
      · rintro ⟨x, hx, e⟩
        have hxi : x ≠ i := by rintro rfl; exact hq e
        exact ⟨x, (hmem k x hxi).mpr hx, e⟩

/-- Instance of the theorem above: with 30 buffers, the first call `bget(1,1)`
after `binit` is a miss that returns `bufs[0]` and gives it block number 1, which
is not a multiple of 13; before and after, the buffers are where the theorem says:
`bufs[1]` in bucket 1 after `binit`, `bufs[0]` in bucket 1 after the call. -/
theorem buffer_in_bucket_of_blockno_witness :
    (after 30 [.bget 1 1]).blockno (.bufs 0) = 1 ∧
    Linked (after 30 [.bget 1 1]) ((after 30 [.bget 1 1]).blockno (.bufs 0) % NUMBUCKET)
      (.bufs 0) ∧
    Linked (binit 30 (boot (fun _ _ => []))) (1 % NUMBUCKET) (.bufs 1) ∧
    (bget_state 31 (after 30 []) 1 1).blockno (.bufs 0) = 1 ∧
    Linked (bget_state 31 (after 30 []) 1 1) (1 % NUMBUCKET) (.bufs 0) :=
  ⟨by decide,
    (buffer_in_bucket_of_blockno 30).1 (after 30 [.bget 1 1]) (after_reachable _ _) 0
      (by decide) (by decide),
    (buffer_in_bucket_of_blockno 30).2.1 _ 1 (by decide),
    ((buffer_in_bucket_of_blockno 30).2.2 (after 30 []) (after_reachable _ _) 31 1 1 _ (.bufs 0)
      (bget_of_buf (by decide)) (by decide)).1,
    ((buffer_in_bucket_of_blockno 30).2.2 (after 30 []) (after_reachable _ _) 31 1 1 _ (.bufs 0)
      (bget_of_buf (by decide)) (by decide)).2.1 (Or.inl (by decide))⟩

/-! ## C4 -/

/-- C4.  Whatever the state, when `bget(dev, blockno)` returns buffer `b`: if the
call was a miss then `b` had `refcnt == 0` before the call, and every buffer
that had `refcnt > 0` before the call has the same `dev`, `blockno` and `valid`
after it. -/
theorem bget_spares_used_buffers (fuel : Nat) (s s2 : State) (dev blockno : Nat) (b : Ptr)
    (h : bget fuel s dev blockno = .ok (s2, b)) :
    (bget_find s (blockno % NUMBUCKET) dev blockno fuel
        (s.next (.head (blockno % NUMBUCKET))) = .ok none → s.refcnt b = 0) ∧
    (∀ q, 0 < s.refcnt q →
      s2.dev q = s.dev q ∧ s2.blockno q = s.blockno q ∧ s2.valid q = s.valid q) := by
  rcases bget_ok_cases h with ⟨h1, h2⟩ | ⟨hm, _, _, h4⟩
  · refine ⟨?_, ?_⟩
    · intro hm; rw [h1] at hm; cases hm
    · intro q _
      rw [h2]
      exact ⟨rfl, rfl, rfl⟩
  · have h0 : s.refcnt b = 0 := bget_miss_unused h hm
    refine ⟨fun _ => h0, ?_⟩
    intro q hq
    have hqb : q ≠ b := by rintro rfl; omega
    obtain ⟨fd, fb, _, fv, _⟩ := recycle_fields s dev blockno b
    rw [h4, fd, fb, fv, upd_ne _ _ hqb, upd_ne _ _ hqb, upd_ne _ _ hqb]
    exact ⟨rfl, rfl, rfl⟩

/-- Instance of the theorem above: with 30 buffers, after `binit` and
`bget(1,1)`, which holds `bufs[0]`, the call `bget(1,2)` is a miss on the unused
`bufs[13]` and leaves `bufs[0]` with identity `(1, 1)`. -/
theorem bget_spares_used_buffers_witness :
    (after 30 [.bget 1 1]).refcnt (.bufs 13) = 0 ∧
    (bget_state 31 (after 30 [.bget 1 1]) 1 2).dev (.bufs 0) = (after 30 [.bget 1 1]).dev (.bufs 0) ∧
    (bget_state 31 (after 30 [.bget 1 1]) 1 2).blockno (.bufs 0) =
      (after 30 [.bget 1 1]).blockno (.bufs 0) ∧
    (bget_state 31 (after 30 [.bget 1 1]) 1 2).valid (.bufs 0) =
      (after 30 [.bget 1 1]).valid (.bufs 0) :=
  ⟨(bget_spares_used_buffers 31 (after 30 [.bget 1 1]) _ 1 2 (.bufs 13)
      (bget_of_buf (by decide))).1 (by decide),
    (bget_spares_used_buffers 31 (after 30 [.bget 1 1]) _ 1 2 (.bufs 13)
      (bget_of_buf (by decide))).2 (.bufs 0) (by decide)⟩

/-! ## C5 -/

/-- C5.  In every reachable state, when `bget` misses and returns buffer `b`,
then `b` is a pool buffer with `refcnt == 0` whose `time_stamp` before the call
is less than or equal to the `time_stamp` of every pool buffer with
`refcnt == 0`. -/
theorem bget_recycles_least_recent (NBUF : Nat) (s : State) (hs : Reachable NBUF s)
    (fuel dev blockno : Nat) (s2 : State) (b : Ptr)
    (h : bget fuel s dev blockno = .ok (s2, b))
    (hm : bget_find s (blockno % NUMBUCKET) dev blockno fuel
      (s.next (.head (blockno % NUMBUCKET))) = .ok none) :
    (∃ i, i < NBUF ∧ b = .bufs i) ∧ s.refcnt b = 0 ∧
    (∀ i, i < NBUF → s.refcnt (.bufs i) = 0 → s.time_stamp b ≤ s.time_stamp (.bufs i)) := by
  obtain ⟨L, I⟩ := reachable_inv hs
  obtain ⟨j, i, e, hi, _, h0, _, hmin, _⟩ := bget_miss_inv I h hm
  subst e
  exact ⟨⟨i, (I.pool i).mpr ⟨j, hi⟩, rfl⟩, h0, hmin⟩

/-- Instance of the theorem above: with 30 buffers, `bget(1,1)` at tick 5,
`brelse`, `bget(1,2)` at tick 7, `brelse`; the miss `bget(1,3)` then takes
`bufs[26]`, stamp 0, rather than the released `bufs[0]` (stamp 5) or `bufs[13]`
(stamp 7). -/
theorem bget_recycles_least_recent_witness :
    (after 30 [.tick 5, .bget 1 1, .brelse 0, .tick 7, .bget 1 2, .brelse 13]).time_stamp
        (.bufs 26) ≤
      (after 30 [.tick 5, .bget 1 1, .brelse 0, .tick 7, .bget 1 2, .brelse 13]).time_stamp
        (.bufs 0) :=
  (bget_recycles_least_recent 30 _ (after_reachable 30 _) 31 1 3 _ (.bufs 26)
    (bget_of_buf (by decide)) (by decide)).2.2 0 (by decide) (by decide)

/-! ## C7 -/

/-- C7.  Whatever the state, when `bget(dev, blockno)` misses and returns buffer
`b`, then after the call `b` has the requested `dev` and `blockno`,
`refcnt == 1`, `valid == 0`, and `time_stamp` equal to `ticks`. -/
theorem bget_miss_fields (fuel : Nat) (s s2 : State) (dev blockno : Nat) (b : Ptr)
    (h : bget fuel s dev blockno = .ok (s2, b))
    (hm : bget_find s (blockno % NUMBUCKET) dev blockno fuel
      (s.next (.head (blockno % NUMBUCKET))) = .ok none) :
    s2.dev b = dev ∧ s2.blockno b = blockno ∧ s2.refcnt b = 1 ∧ s2.valid b = 0 ∧
      s2.time_stamp b = s.ticks := by
  rcases bget_ok_cases h with ⟨h1, _⟩ | ⟨_, _, _, h4⟩
  · rw [h1] at hm; cases hm
  · obtain ⟨fd, fb, fr, fv, ft, _⟩ := recycle_fields s dev blockno b
    rw [h4, fd, fb, fr, fv, ft]
    exact ⟨upd_same _ _ _, upd_same _ _ _, upd_same _ _ _, upd_same _ _ _, upd_same _ _ _⟩

/-- Instance of the theorem above: with 30 buffers, `bget(1,1)` at tick 5 after
`binit`. -/
theorem bget_miss_fields_witness :
    (bget_state 31 (after 30 [.tick 5]) 1 1).dev (.bufs 0) = 1 ∧
    (bget_state 31 (after 30 [.tick 5]) 1 1).blockno (.bufs 0) = 1 ∧
    (bget_state 31 (after 30 [.tick 5]) 1 1).refcnt (.bufs 0) = 1 ∧
    (bget_state 31 (after 30 [.tick 5]) 1 1).valid (.bufs 0) = 0 ∧
    (bget_state 31 (after 30 [.tick 5]) 1 1).time_stamp (.bufs 0) = (after 30 [.tick 5]).ticks :=
  bget_miss_fields 31 (after 30 [.tick 5]) _ 1 1 (.bufs 0) (bget_of_buf (by decide)) (by decide)

/-! ## C6 -/

set_option maxHeartbeats 4000000 in
theorem full_pool_run_facts :
    runs 30 full_pool_run = true ∧
    (after 30 full_pool_run).refcnt (.bufs 0) = 0 ∧
    (after 30 full_pool_run).time_stamp (.bufs 0) = 0x7fffffff ∧
    bget_find (after 30 full_pool_run) (99 % NUMBUCKET) 1 99 31
      ((after 30 full_pool_run).next (.head (99 % NUMBUCKET))) = .ok none ∧
    (bget 31 (after 30 full_pool_run) 1 99).msg = some "bget: no buffers" := by decide

/-- C6 (the code departs from the claim).  With 30 buffers, after `binit`, a
clock at `0x7fffffff`, `bget(1,1)`, ..., `bget(1,30)` and `brelse(&bufs[0])`, the
buffer `bufs[0]` has `refcnt == 0` and `time_stamp == 0x7fffffff`; the call
`bget(1,99)` misses in bucket `99 % 13` and ends in the fatal
`bget: no buffers`. -/
theorem bget_fails_beside_unused_buffer :
    runs 30 full_pool_run = true ∧ Reachable 30 (after 30 full_pool_run) ∧
    (after 30 full_pool_run).refcnt (.bufs 0) = 0 ∧
    (after 30 full_pool_run).time_stamp (.bufs 0) = 0x7fffffff ∧
    bget_find (after 30 full_pool_run) (99 % NUMBUCKET) 1 99 31
      ((after 30 full_pool_run).next (.head (99 % NUMBUCKET))) = .ok none ∧
    bget 31 (after 30 full_pool_run) 1 99 = .panic "bget: no buffers" :=
  ⟨full_pool_run_facts.1, after_reachable _ _, full_pool_run_facts.2.1,
    full_pool_run_facts.2.2.1, full_pool_run_facts.2.2.2.1,
    result_of_msg full_pool_run_facts.2.2.2.2⟩

/-! ## C8 -/

/-- C8 (the claim fails as stated).  With 30 buffers, after `binit`, `bget(1,1)`
at tick 5, `bget(1,14)` at tick 7 and `bget(1,1)` at tick 9, the list of bucket 1
starts with `bufs[13]`, stamp 7, followed by `bufs[0]`, stamp 9: the stamps
increase along `next`, and `head.next` is not the most recently used buffer. -/
theorem bucket_not_ordered_by_recency :
    runs 30 restamp_run = true ∧ Reachable 30 (after 30 restamp_run) ∧
    bucket_list 31 (after 30 restamp_run) 1 =
      [.bufs 13, .bufs 0, .bufs 27, .bufs 14, .bufs 1] ∧
    (after 30 restamp_run).next (.head 1) = .bufs 13 ∧
    (after 30 restamp_run).time_stamp (.bufs 13) = 7 ∧
    (after 30 restamp_run).time_stamp (.bufs 0) = 9 :=
  ⟨by decide, after_reachable _ _, by decide, by decide, by decide, by decide⟩

/-- C8 (amended).  The lists are not kept in order of recency.  In every
reachable state, `bget` stamps the buffer it returns with `ticks`, after which no
buffer has a greater `time_stamp`; a hit leaves every `next` and `prev` link as
it is, and so does a miss whose buffer keeps its bucket (old and new block number
agree modulo `NUMBUCKET`); a miss whose buffer changes bucket makes it
`head.next` of the new bucket; `brelse` leaves every link as it is. -/
theorem bget_links_and_stamp (NBUF : Nat) (s : State) (hs : Reachable NBUF s)
    (fuel dev blockno : Nat) (s2 : State) (b : Ptr)
    (h : bget fuel s dev blockno = .ok (s2, b)) :
    s2.time_stamp b = s.ticks ∧ (∀ q, s2.time_stamp q ≤ s2.time_stamp b) ∧
    (bget_find s (blockno % NUMBUCKET) dev blockno fuel
        (s.next (.head (blockno % NUMBUCKET))) = .ok (some b) →
      s2.next = s.next ∧ s2.prev = s.prev) ∧
    (bget_find s (blockno % NUMBUCKET) dev blockno fuel
        (s.next (.head (blockno % NUMBUCKET))) = .ok none →
      (blockno % NUMBUCKET = s.blockno b % NUMBUCKET → s2.next = s.next ∧ s2.prev = s.prev) ∧
      (blockno % NUMBUCKET ≠ s.blockno b % NUMBUCKET →
        s2.next (.head (blockno % NUMBUCKET)) = b)) ∧
    (∀ holding q s3, brelse holding s2 q = .ok s3 → s3.next = s2.next ∧ s3.prev = s2.prev) := by
  obtain ⟨L, I⟩ := reachable_inv hs
  have hrel : ∀ holding q s3, brelse holding s2 q = .ok s3 →
      s3.next = s2.next ∧ s3.prev = s2.prev := by
    intro holding q s3 h3
    unfold brelse at h3
    split at h3
    · cases h3
    · cases h3; exact ⟨rfl, rfl⟩
  rcases bget_ok_cases h with ⟨h1, h2⟩ | ⟨h1, _, _, h4⟩
  · have ht : s2.time_stamp = upd s.time_stamp b s.ticks := by rw [h2]; rfl
    refine ⟨by rw [ht, upd_same], ?_, fun _ => by rw [h2]; exact ⟨rfl, rfl⟩, ?_, hrel⟩
    · intro q
      rw [ht, upd_same]
      by_cases hq : q = b
      · rw [hq, upd_same]
      · rw [upd_ne _ _ hq]; exact I.stamp q
    · intro hm; rw [h1] at hm; cases hm
  · obtain ⟨_, _, _, _, ft, _⟩ := recycle_fields s dev blockno b
    have ht : s2.time_stamp = upd s.time_stamp b s.ticks := by rw [h4, ft]
    refine ⟨by rw [ht, upd_same], ?_, ?_, fun _ => ⟨?_, ?_⟩, hrel⟩
    · intro q
      rw [ht, upd_same]
      by_cases hq : q = b
      · rw [hq, upd_same]
      · rw [upd_ne _ _ hq]; exact I.stamp q
    · intro hm; rw [h1] at hm; cases hm
    · intro hsame
      rw [h4]
      exact recycle_links_same s dev blockno b hsame
    · intro hne
      obtain ⟨j, i, e, _⟩ := bget_miss_inv I h h1
      subst e
      rw [h4, (recycle_links_move s dev blockno i hne).1, upd_same]

/-- Instance of the theorem above: the last call of `restamp_run`, the hit
`bget(1,1)` at tick 9 on `bufs[0]`, changes no link and leaves `bufs[0]` with
stamp 9. -/
theorem bget_links_and_stamp_witness :
    (bget_state 31 (after 30 [.tick 5, .bget 1 1, .tick 7, .bget 1 14, .tick 9]) 1 1).time_stamp
        (.bufs 0) = 9 ∧
    (bget_state 31 (after 30 [.tick 5, .bget 1 1, .tick 7, .bget 1 14, .tick 9]) 1 1).next =
      (after 30 [.tick 5, .bget 1 1, .tick 7, .bget 1 14, .tick 9]).next :=
  ⟨(bget_links_and_stamp 30 _ (after_reachable 30 _) 31 1 1 _ (.bufs 0)
      (bget_of_buf (by decide))).1.trans (by decide),
    ((bget_links_and_stamp 30 _ (after_reachable 30 _) 31 1 1 _ (.bufs 0)
      (bget_of_buf (by decide))).2.2.1 (by decide)).1⟩

/-! ## C9 -/

/-- C9.  For a buffer `b` with `refcnt == 1`, as `bget` returns it on a miss:
after `bpin(b)` and `brelse(b)` by its holder the `refcnt` of `b` is 1, so that
no miss of `bget` returns `b`; after `bunpin(b)` it is 0.  In general `bpin`
adds 1 to `b->refcnt` and `brelse` and `bunpin` subtract 1 from it, in the
arithmetic of `uint` (modulo `2^32`, hence exactly 1 unless the counter wraps),
and they change no other field of any buffer. -/
theorem pin_release_unpin (s : State) (b : Ptr) :
    (s.refcnt b = 1 →
      ∃ s1, brelse true (bpin s b) b = .ok s1 ∧ s1.refcnt b = 1 ∧
        (∀ fuel dev blockno s2 b2, bget fuel s1 dev blockno = .ok (s2, b2) →
          bget_find s1 (blockno % NUMBUCKET) dev blockno fuel
            (s1.next (.head (blockno % NUMBUCKET))) = .ok none → b2 ≠ b) ∧
        (bunpin s1 b).refcnt b = 0) ∧
    (bpin s b).refcnt b = (s.refcnt b + 1) % 2 ^ 32 ∧
    (s.refcnt b + 1 < 2 ^ 32 → (bpin s b).refcnt b = s.refcnt b + 1) ∧
    (bunpin s b).refcnt b = (s.refcnt b + 2 ^ 32 - 1) % 2 ^ 32 ∧
    (0 < s.refcnt b → s.refcnt b < 2 ^ 32 → (bunpin s b).refcnt b + 1 = s.refcnt b) ∧
    (∃ s3, brelse true s b = .ok s3 ∧ s3 = bunpin s b) ∧
    (∀ q, q ≠ b → (bpin s b).refcnt q = s.refcnt q ∧ (bunpin s b).refcnt q = s.refcnt q) ∧
    ((bpin s b).dev = s.dev ∧ (bpin s b).blockno = s.blockno ∧ (bpin s b).valid = s.valid ∧
      (bpin s b).time_stamp = s.time_stamp ∧ (bpin s b).next = s.next ∧
      (bpin s b).prev = s.prev ∧ (bpin s b).data = s.data) ∧
    ((bunpin s b).dev = s.dev ∧ (bunpin s b).blockno = s.blockno ∧
      (bunpin s b).valid = s.valid ∧ (bunpin s b).time_stamp = s.time_stamp ∧
      (bunpin s b).next = s.next ∧ (bunpin s b).prev = s.prev ∧
      (bunpin s b).data = s.data) := by
  have hp : (bpin s b).refcnt b = (s.refcnt b + 1) % 2 ^ 32 := by
    show upd s.refcnt b _ b = _
    rw [upd_same]
  have hu : (bunpin s b).refcnt b = (s.refcnt b + 2 ^ 32 - 1) % 2 ^ 32 := by
    show upd s.refcnt b _ b = _
    rw [upd_same]
  refine ⟨?_, hp, ?_, hu, ?_, ⟨_, rfl, rfl⟩, ?_, ⟨rfl, rfl, rfl, rfl, rfl, rfl, rfl⟩,
    ⟨rfl, rfl, rfl, rfl, rfl, rfl, rfl⟩⟩
  · intro h1
    have hs1 : (bunpin (bpin s b) b).refcnt b = 1 := by
      show upd (bpin s b).refcnt b _ b = _
      rw [upd_same, hp, h1]
      norm_num
    refine ⟨bunpin (bpin s b) b, rfl, hs1, ?_, ?_⟩
    · intro fuel dev blockno s2 b2 hb hm e
      have := bget_miss_unused hb hm
      rw [e, hs1] at this
      cases this
    · show upd (bunpin (bpin s b) b).refcnt b _ b = _
      rw [upd_same, hs1]
      norm_num
  · intro h
    rw [hp, Nat.mod_eq_of_lt h]
  · intro h0 h1
    rw [hu]
    have : s.refcnt b + 2 ^ 32 - 1 = (s.refcnt b - 1) + 2 ^ 32 := by omega
    rw [this, Nat.add_mod_right, Nat.mod_eq_of_lt (by omega)]
    omega
  · intro q hq
    exact ⟨upd_ne _ _ hq, upd_ne _ _ hq⟩

/-- Instance of the theorem above: with 30 buffers, `bufs[0]` as returned by
`bget(1,1)` after `binit`. -/
theorem pin_release_unpin_witness :
    (after 30 [.bget 1 1]).refcnt (.bufs 0) = 1 ∧
    ∃ s1, brelse true (bpin (after 30 [.bget 1 1]) (.bufs 0)) (.bufs 0) = .ok s1 ∧
      s1.refcnt (.bufs 0) = 1 ∧ (bunpin s1 (.bufs 0)).refcnt (.bufs 0) = 0 := by
  obtain ⟨s1, h1, h2, _, h4⟩ :=
    (pin_release_unpin (after 30 [.bget 1 1]) (.bufs 0)).1 (by decide)
  exact ⟨by decide, s1, h1, h2, h4⟩

/-! ## Reading a block back -/

theorem write_back_ok (s : State) (b : Ptr) (d : List Nat) :
    write_back s b d = .ok (bunpin (virtio_disk_rw (set_data s b d) b 1) b) := rfl

/-- The lookup of `bget` reads the links and the identities only. -/
theorem bget_find_congr {s t : State} (hn : t.next = s.next) (hd : t.dev = s.dev)
    (hb : t.blockno = s.blockno) (id dev blockno : Nat) :
    ∀ (fuel : Nat) (b : Ptr),
      bget_find t id dev blockno fuel b = bget_find s id dev blockno fuel b := by
  intro fuel
  induction fuel with
  | zero => intro b; rfl
  | succ fuel ih =>
    intro b
    simp only [bget_find, hn, hd, hb, ih]

theorem bget_find_some (s : State) (id dev blockno : Nat) :
    ∀ (fuel : Nat) (b c : Ptr), bget_find s id dev blockno fuel b = .ok (some c) →
      s.dev c = dev ∧ s.blockno c = blockno := by
  intro fuel
  induction fuel with
  | zero => intro b c h; simp [bget_find] at h
  | succ fuel ih =>
    intro b c h
    simp only [bget_find] at h
    split at h
    · cases h
    · split at h
      · rename_i hc
        cases h
        exact hc
      · exact ih _ _ h

/-- The routine `bread` is `bget` followed, when the buffer is not valid, by a
read from the disk into its payload. -/
theorem bread_cases {fuel : Nat} {s s1 : State} {dev blockno : Nat} {b : Ptr}
    (h : bread fuel s dev blockno = .ok (s1, b)) :
    ∃ sg, bget fuel s dev blockno = .ok (sg, b) ∧
      ((sg.valid b = 0 ∧ s1.valid = upd sg.valid b 1 ∧
          s1.data = upd sg.data b (sg.disk (sg.dev b) (sg.blockno b))) ∨
        (sg.valid b ≠ 0 ∧ s1 = sg)) ∧
      s1.next = sg.next ∧ s1.prev = sg.prev ∧ s1.dev = sg.dev ∧ s1.blockno = sg.blockno ∧
      s1.refcnt = sg.refcnt ∧ s1.time_stamp = sg.time_stamp ∧ s1.ticks = sg.ticks ∧
      s1.disk = sg.disk := by
  unfold bread at h
  cases hg : bget fuel s dev blockno with
  | timeout => simp only [hg] at h; cases h
  | panic msg => simp only [hg] at h; cases h
  | ok x =>
    obtain ⟨sg, b1⟩ := x
    simp only [hg] at h
    split at h
    · rename_i hv
      cases h
      exact ⟨_, rfl, Or.inl ⟨hv, rfl, rfl⟩, rfl, rfl, rfl, rfl, rfl, rfl, rfl, rfl⟩
    · rename_i hv
      cases h
      exact ⟨_, rfl, Or.inr ⟨hv, rfl⟩, rfl, rfl, rfl, rfl, rfl, rfl, rfl, rfl⟩

theorem bread_of_bget {fuel : Nat} {s sg : State} {dev blockno : Nat} {b : Ptr}
    (h : bget fuel s dev blockno = .ok (sg, b)) :
    ∃ s1, bread fuel s dev blockno = .ok (s1, b) := by
  unfold bread
  simp only [h]
  split
  · exact ⟨_, rfl⟩
  · exact ⟨_, rfl⟩

/-- The identity of the buffer returned by `bget` is the one asked for. -/
theorem bget_identity {fuel : Nat} {s s2 : State} {dev blockno : Nat} {b : Ptr}
    (h : bget fuel s dev blockno = .ok (s2, b)) : s2.dev b = dev ∧ s2.blockno b = blockno := by
  rcases bget_ok_cases h with ⟨h1, h2⟩ | ⟨_, _, _, h4⟩
  · rw [h2]
    show s.dev b = dev ∧ s.blockno b = blockno
    exact bget_find_some _ _ _ _ _ _ _ h1
  · obtain ⟨fd, fb, _⟩ := recycle_fields s dev blockno b
    rw [h4, fd, fb]
    exact ⟨upd_same _ _ _, upd_same _ _ _⟩

/-- Round trip through the cache.  In a reachable state in which
`b = bread(dev, blockno)` returns, let the holder store the bytes `d` in the payload
of `b` and call `bwrite(b)` and `brelse(b)`.  Then a second `bread(dev, blockno)`
that returns buffer `b2` leaves `b2` valid with payload `d`; and it does return
when the clock was below `0x7fffffff` at the first read (given fuel for the whole
pool). -/
theorem bread_round_trip (NBUF : Nat) (s : State) (hs : Reachable NBUF s)
    (fuel dev blockno : Nat) (d : List Nat) (s1 : State) (b : Ptr)
    (h1 : bread fuel s dev blockno = .ok (s1, b)) :
    ∃ s4, write_back s1 b d = .ok s4 ∧
      (∀ s5 b2, bread fuel s4 dev blockno = .ok (s5, b2) → s5.valid b2 = 1 ∧ s5.data b2 = d) ∧
      (NBUF < fuel → s.ticks < 0x7fffffff → ∃ s5 b2, bread fuel s4 dev blockno = .ok (s5, b2)) := by
  obtain ⟨L, I⟩ := reachable_inv hs
  obtain ⟨sg, hg, hread, e1, e2, e3, e4, e5, e6, e7, e8⟩ := bread_cases h1
  obtain ⟨hid1, hid2⟩ := bget_identity hg
  refine ⟨_, write_back_ok s1 b d, ?_⟩
  -- the state before the second read
  have f4n : (bunpin (virtio_disk_rw (set_data s1 b d) b 1) b).next = sg.next := e1
  have f4p : (bunpin (virtio_disk_rw (set_data s1 b d) b 1) b).prev = sg.prev := e2
  have f4d : (bunpin (virtio_disk_rw (set_data s1 b d) b 1) b).dev = sg.dev := e3
  have f4b : (bunpin (virtio_disk_rw (set_data s1 b d) b 1) b).blockno = sg.blockno := e4
  have f4t : (bunpin (virtio_disk_rw (set_data s1 b d) b 1) b).time_stamp = sg.time_stamp := e6
  have f4k : (bunpin (virtio_disk_rw (set_data s1 b d) b 1) b).ticks = sg.ticks := e7
  have f4v : (bunpin (virtio_disk_rw (set_data s1 b d) b 1) b).valid = s1.valid := rfl
  have f4r : (bunpin (virtio_disk_rw (set_data s1 b d) b 1) b).refcnt b =
      (sg.refcnt b + 2 ^ 32 - 1) % 2 ^ 32 := by
    show upd _ b _ b = _
    rw [upd_same]
    show (s1.refcnt b + 2 ^ 32 - 1) % 2 ^ 32 = _
    rw [e5]
  have f4data : (bunpin (virtio_disk_rw (set_data s1 b d) b 1) b).data b = d := by
    show upd s1.data b d b = d
    rw [upd_same]
  have f4disk : (bunpin (virtio_disk_rw (set_data s1 b d) b 1) b).disk dev blockno = d := by
    show (if dev = s1.dev b ∧ blockno = s1.blockno b then upd s1.data b d b else _) = d
    rw [e3, e4, hid1, hid2, if_pos ⟨rfl, rfl⟩, upd_same]
  generalize hs4 : bunpin (virtio_disk_rw (set_data s1 b d) b 1) b = s4 at *
  -- the first read leaves `b` valid
  have hvalid : ∀ L1, Inv NBUF sg L1 → s4.valid b = 1 := by
    intro L1 Ig
    rw [f4v]
    rcases hread with ⟨_, hv, _⟩ | ⟨hv, e⟩
    · rw [hv, upd_same]
    · rw [e]
      rcases Ig.valid01 b with h0 | h0
      · exact absurd h0 hv
      · exact h0
  have hinv4 : ∀ L1, Inv NBUF sg L1 → Inv NBUF s4 L1 := by
    intro L1 Ig
    refine inv_of_eq Ig f4n f4p f4d f4b ?_ ?_
    · intro q; rw [f4t, f4k]; exact Ig.stamp q
    · intro q
      rw [f4v]
      rcases hread with ⟨_, hv, _⟩ | ⟨_, e⟩
      · rw [hv]
        by_cases hq : q = b
        · rw [hq, upd_same]; right; rfl
        · rw [upd_ne _ _ hq]; exact Ig.valid01 q
      · rw [e]; exact Ig.valid01 q
  -- a second lookup that finds a buffer finds `b`
  have hsame : ∀ fuel2 b2, bget_find s4 (blockno % NUMBUCKET) dev blockno fuel2
      (s4.next (.head (blockno % NUMBUCKET))) = .ok (some b2) → fuel ≤ fuel2 →
      b2 = b ∧ ∃ L1, Inv NBUF sg L1 := by
    intro fuel2 b2 hf2 hle
    rcases bget_ok_cases hg with ⟨g1, g2⟩ | ⟨g1, _, _, g4⟩
    · have hn : s4.next = s.next := by rw [f4n, g2]; rfl
      have hd : s4.dev = s.dev := by rw [f4d, g2]; rfl
      have hb : s4.blockno = s.blockno := by rw [f4b, g2]; rfl
      rw [bget_find_congr hn hd hb, hn] at hf2
      have := bget_find_mono _ _ _ _ _ _ _ g1 _ hle
      rw [this] at hf2
      cases hf2
      refine ⟨rfl, L, ?_⟩
      rw [g2]; exact hit_inv I _
    · obtain ⟨j, i, e, hi, hmiss, _, _, _, _⟩ := bget_miss_inv I hg g1
      subst e
      obtain ⟨L2, I2, hmem, _, _⟩ := inv_recycle I hi dev blockno hmiss
      rw [← g4] at I2
      refine ⟨?_, L2, I2⟩
      have I4 := hinv4 L2 I2
      have hbig : NBUF < max fuel2 (NBUF + 1) :=
        lt_of_lt_of_le (Nat.lt_succ_self _) (le_max_right _ _)
      have hf3 := bget_find_mono _ _ _ _ _ _ _ hf2 _ (le_max_left fuel2 (NBUF + 1))
      rcases bget_spec I4 hbig dev blockno with ⟨i2, hi2, hd2, hb2, hfd, _⟩ | ⟨_, hfd, _⟩
      · rw [hfd] at hf3
        cases hf3
        by_cases hii : i2 = i
        · rw [hii]
        · exfalso
          have hne : Ptr.bufs i2 ≠ Ptr.bufs i := fun e => hii (bufs_injective e)
          obtain ⟨fd, fb, _⟩ := recycle_fields s dev blockno (.bufs i)
          rw [f4d, g4, fd, upd_ne _ _ hne] at hd2
          rw [f4b, g4, fb, upd_ne _ _ hne] at hb2
          exact hmiss i2 ((hmem _ i2 hii).mp hi2) ⟨hd2, hb2⟩
      · rw [hfd] at hf3
        cases hf3
  constructor
  · intro s5 b2 h5
    obtain ⟨sg2, hg2, hread2, _, _, _, _, _, _, _, _⟩ := bread_cases h5
    rcases bget_ok_cases hg2 with ⟨g1, g2⟩ | ⟨_, _, _, g4⟩
    · obtain ⟨e, L1, Ig⟩ := hsame fuel b2 g1 (le_refl _)
      subst e
      have hv4 := hvalid L1 Ig
      have hv2 : sg2.valid b2 = 1 := by rw [g2]; exact hv4
      rcases hread2 with ⟨h0, _, _⟩ | ⟨_, e⟩
      · rw [hv2] at h0; cases h0
      · rw [e, g2]
        exact ⟨hv4, f4data⟩
    · obtain ⟨fd, fb, _, fv, _, _, _, fk⟩ := recycle_fields s4 dev blockno b2
      rcases hread2 with ⟨_, hv, hdat⟩ | ⟨hv, _⟩
      · rw [hv, hdat, upd_same, upd_same, g4, fd, fb, fk, upd_same, upd_same]
        exact ⟨rfl, f4disk⟩
      · rw [g4, fv, upd_same] at hv
        exact absurd rfl hv
  · intro hf hticks
    obtain ⟨L1, Ig, _⟩ := bget_inv I hg
    have I4 := hinv4 L1 Ig
    rcases bget_spec I4 hf dev blockno with ⟨i2, _, _, _, _, hb⟩ |
        ⟨_, hfd, ⟨_, hall⟩ | ⟨_, i2, _, _, _, _, hb⟩⟩
    · obtain ⟨s5, h5⟩ := bread_of_bget hb
      exact ⟨s5, _, h5⟩
    · exfalso
      rcases bget_ok_cases hg with ⟨g1, g2⟩ | ⟨g1, _, _, g4⟩
      · have hn : s4.next = s.next := by rw [f4n, g2]; rfl
        have hd : s4.dev = s.dev := by rw [f4d, g2]; rfl
        have hb : s4.blockno = s.blockno := by rw [f4b, g2]; rfl
        rw [bget_find_congr hn hd hb, hn, g1] at hfd
        cases hfd
      · obtain ⟨j, i, e, hi, _, _, _, _, _⟩ := bget_miss_inv I hg g1
        subst e
        obtain ⟨_, _, fr, _, ft, _⟩ := recycle_fields s dev blockno (.bufs i)
        have h0 : s4.refcnt (.bufs i) = 0 := by
          rw [f4r, g4, fr, upd_same]
          norm_num
        have := hall i ((I.pool i).mpr ⟨j, hi⟩) h0
        rw [f4t, g4, ft, upd_same] at this
        omega
    · obtain ⟨s5, h5⟩ := bread_of_bget hb
      exact ⟨s5, _, h5⟩

/-! ## C10 -/

theorem bread_of_buf {fuel : Nat} {s : State} {dev blockno : Nat} {b : Ptr}
    (h : bread_buf fuel s dev blockno = some b) :
    bread fuel s dev blockno = .ok (bread_state fuel s dev blockno, b) := by
  unfold bread_buf at h
  unfold bread_state
  cases hb : bread fuel s dev blockno with
  | timeout => rw [hb] at h; cases h
  | panic m => rw [hb] at h; cases h
  | ok r =>
    rw [hb] at h
    simp only [Result.toOption, Option.map_some', Option.some.injEq] at h
    simp only [Result.toOption, Option.map_some', Option.getD_some]
    rw [← h]

set_option maxHeartbeats 4000000 in
theorem held_pool_run_facts :
    runs 30 held_pool_run = true ∧
    bread_buf 31 (after 30 held_pool_run) 1 390 = some (.bufs 25) ∧
    (bunpin (virtio_disk_rw (set_data (bread_state 31 (after 30 held_pool_run) 1 390)
      (.bufs 25) [7, 7, 7]) (.bufs 25) 1) (.bufs 25)).dev (.bufs 25) = 1 ∧
    (bunpin (virtio_disk_rw (set_data (bread_state 31 (after 30 held_pool_run) 1 390)
      (.bufs 25) [7, 7, 7]) (.bufs 25) 1) (.bufs 25)).blockno (.bufs 25) = 390 ∧
    (bunpin (virtio_disk_rw (set_data (bread_state 31 (after 30 held_pool_run) 1 390)
      (.bufs 25) [7, 7, 7]) (.bufs 25) 1) (.bufs 25)).valid (.bufs 25) = 1 ∧
    (bunpin (virtio_disk_rw (set_data (bread_state 31 (after 30 held_pool_run) 1 390)
      (.bufs 25) [7, 7, 7]) (.bufs 25) 1) (.bufs 25)).refcnt (.bufs 25) = 0 ∧
    (bunpin (virtio_disk_rw (set_data (bread_state 31 (after 30 held_pool_run) 1 390)
      (.bufs 25) [7, 7, 7]) (.bufs 25) 1) (.bufs 25)).data (.bufs 25) = [7, 7, 7] ∧
    (bread 31 (bunpin (virtio_disk_rw (set_data (bread_state 31 (after 30 held_pool_run) 1 390)
      (.bufs 25) [7, 7, 7]) (.bufs 25) 1) (.bufs 25)) 1 390).msg =
      some "bget: no buffers" := by
  decide

/-- C10 (the code departs from the claim).  With 30 buffers, in the reachable
state in which the clock is at `0x7fffffff` and `bget(1,13)`, ..., `bget(1,377)`
hold 29 buffers: `bread(1,390)` returns `bufs[25]`; after the bytes `7, 7, 7` are
stored in its payload, `bwrite` and `brelse`, the buffer has `dev == 1`,
`blockno == 390`, `valid == 1`, `refcnt == 0` and holds these bytes; and the second
`bread(1,390)` yields no buffer: it ends in the fatal `bget: no buffers`. -/
theorem round_trip_second_bread_fails :
    ∃ s s1 s4, Reachable 30 s ∧ runs 30 held_pool_run = true ∧
      bread 31 s 1 390 = .ok (s1, .bufs 25) ∧
      write_back s1 (.bufs 25) [7, 7, 7] = .ok s4 ∧
      s4.dev (.bufs 25) = 1 ∧ s4.blockno (.bufs 25) = 390 ∧ s4.valid (.bufs 25) = 1 ∧
      s4.refcnt (.bufs 25) = 0 ∧ s4.data (.bufs 25) = [7, 7, 7] ∧
      bread 31 s4 1 390 = .panic "bget: no buffers" :=
  ⟨after 30 held_pool_run, bread_state 31 (after 30 held_pool_run) 1 390, _,
    after_reachable _ _, held_pool_run_facts.1, bread_of_buf held_pool_run_facts.2.1,
    write_back_ok _ _ _, held_pool_run_facts.2.2.1, held_pool_run_facts.2.2.2.1,
    held_pool_run_facts.2.2.2.2.1, held_pool_run_facts.2.2.2.2.2.1,
    held_pool_run_facts.2.2.2.2.2.2.1, result_of_msg held_pool_run_facts.2.2.2.2.2.2.2⟩

/-! ## C11 -/

theorem seg_next_prev {n p : Ptr → Ptr} {z : Ptr} :
    ∀ (l : List Ptr) (a : Ptr), Seg n p a l z → ∀ x, x ∈ a :: l → p (n x) = x := by
  intro l
  induction l with
  | nil =>
    intro a h x hx
    simp only [List.mem_singleton] at hx
    rw [hx, h.1, h.2]
  | cons b l ih =>
    intro a h x hx
    obtain ⟨h1, h2, h3⟩ := h
    rcases List.mem_cons.mp hx with rfl | hx
    · rw [h1, h2]
    · exact ih b h3 x hx

theorem seg_prev_next {n p : Ptr → Ptr} {z : Ptr} :
    ∀ (l : List Ptr) (a : Ptr), Seg n p a l z → ∀ y, y ∈ l ++ [z] → n (p y) = y := by
  intro l
  induction l with
  | nil =>
    intro a h y hy
    simp only [List.nil_append, List.mem_singleton] at hy
    rw [hy, h.2, h.1]
  | cons b l ih =>
    intro a h y hy
    obtain ⟨h1, h2, h3⟩ := h
    rcases List.mem_cons.mp hy with rfl | hy
    · rw [h2, h1]
    · exact ih b h3 y hy

/-- With fuel for its whole list, the walk of a bucket visits exactly the
buffers of the bucket, in order. -/
theorem bucket_list_eq {s : State} {L : Nat → List Nat} (R : Rings s.next s.prev L) {k : Nat}
    (hk : k < NUMBUCKET) {fuel : Nat} (hf : (L k).length ≤ fuel) :
    bucket_list fuel s k = (L k).map Ptr.bufs := by
  unfold bucket_list
  rw [walk_next_seg s k _ _ fuel (R.seg k hk), List.take_of_length_le (by simpa using hf)]

/-- The lists of the buckets have `NBUF` elements in all. -/
theorem inv_total_length {NBUF : Nat} {s : State} {L : Nat → List Nat} (I : Inv NBUF s L) :
    ((List.range NUMBUCKET).map (fun k => (L k).length)).sum = NBUF := by
  have hnd : ((List.range NUMBUCKET).flatMap L).Nodup := by
    rw [List.nodup_flatMap]
    refine ⟨fun k _ => I.rings.nodup k, ?_⟩
    refine (List.nodup_range _).pairwise_of_forall_ne ?_
    intro a _ b _ hab x hx1 hx2
    exact hab (I.rings.disj _ _ _ hx1 hx2)
  have hmem : ∀ i, i ∈ (List.range NUMBUCKET).flatMap L ↔ i < NBUF := by
    intro i
    rw [List.mem_flatMap, I.pool i]
    constructor
    · rintro ⟨k, _, hk⟩
      exact ⟨k, hk⟩
    · rintro ⟨k, hk⟩
      exact ⟨k, List.mem_range.mpr (rings_lt I.rings hk), hk⟩
  have h1 : ((List.range NUMBUCKET).flatMap L).length ≤ NBUF := by
    have := (hnd.subperm (fun i hi => List.mem_range.mpr ((hmem i).mp hi))).length_le
    simpa using this
  have h2 : NBUF ≤ ((List.range NUMBUCKET).flatMap L).length := by
    have := ((List.nodup_range NBUF).subperm
      (fun i hi => (hmem i).mpr (List.mem_range.mp hi))).length_le
    simpa using this
  have h3 := List.length_flatMap (List.range NUMBUCKET) L
  have h4 : (List.map (List.length ∘ L) (List.range NUMBUCKET)) =
      (List.range NUMBUCKET).map (fun k => (L k).length) := rfl
  rw [h4] at h3
  omega

/-- C11.  In every reachable state the lists of the 13 buckets partition the
pool: every buffer `bufs[i]`, `i < NBUF`, occurs exactly once in the list of
exactly one bucket, and nothing else is linked; the lists are rings, with
`x->next->prev == x` and `x->prev->next == x` for every pool buffer and every
head; the lists hold `NBUF` buffers in all; and `binit` links buffer `i` in bucket
`i % NUMBUCKET`.  The walk of a bucket with fuel `NBUF + 1` visits its whole list. -/
theorem buckets_partition_pool (NBUF : Nat) (s : State) (hs : Reachable NBUF s) :
    (∀ i, i < NBUF → ∃ k, k < NUMBUCKET ∧
      (bucket_list (NBUF + 1) s k).count (.bufs i) = 1 ∧
      ∀ k2, k2 < NUMBUCKET → k2 ≠ k → ¬ Linked s k2 (.bufs i)) ∧
    (∀ k q, k < NUMBUCKET → (Linked s k q ↔ q ∈ bucket_list (NBUF + 1) s k)) ∧
    (∀ k q, k < NUMBUCKET → Linked s k q → ∃ i, i < NBUF ∧ q = .bufs i) ∧
    (∀ i, i < NBUF → s.prev (s.next (.bufs i)) = .bufs i ∧
      s.next (s.prev (.bufs i)) = .bufs i) ∧
    (∀ k, k < NUMBUCKET → s.prev (s.next (.head k)) = .head k ∧
      s.next (s.prev (.head k)) = .head k) ∧
    ((List.range NUMBUCKET).map (fun k => (bucket_list (NBUF + 1) s k).length)).sum = NBUF ∧
    (∀ disk i, i < NBUF → Linked (binit NBUF (boot disk)) (i % NUMBUCKET) (.bufs i)) := by
  obtain ⟨L, I⟩ := reachable_inv hs
  have hbl : ∀ k, k < NUMBUCKET → bucket_list (NBUF + 1) s k = (L k).map Ptr.bufs :=
    fun k hk => bucket_list_eq I.rings hk (le_trans (inv_length_le I k) (Nat.le_succ _))
  refine ⟨?_, ?_, ?_, ?_, ?_, ?_, ?_⟩
  · intro i hi
    obtain ⟨k, hk⟩ := (I.pool i).mp hi
    have hkl := rings_lt I.rings hk
    refine ⟨k, hkl, ?_, ?_⟩
    · rw [hbl k hkl]
      exact List.count_eq_one_of_mem ((I.rings.nodup k).map bufs_injective)
        (List.mem_map_of_mem _ hk)
    · intro k2 hk2 hne hl
      obtain ⟨x, hx, e⟩ := (linked_iff I.rings hk2 _).mp hl
      cases e
      exact hne (I.rings.disj _ _ _ hx hk)
  · intro k q hk
    rw [linked_iff I.rings hk, hbl k hk, List.mem_map]
    constructor
    · rintro ⟨x, hx, e⟩
      exact ⟨x, hx, e.symm⟩
    · rintro ⟨x, hx, e⟩
      exact ⟨x, hx, e.symm⟩
  · intro k q hk hl
    obtain ⟨x, hx, e⟩ := (linked_iff I.rings hk _).mp hl
    exact ⟨x, (I.pool x).mpr ⟨k, hx⟩, e⟩
  · intro i hi
    obtain ⟨k, hk⟩ := (I.pool i).mp hi
    have hseg := I.rings.seg k (rings_lt I.rings hk)
    have hm : Ptr.bufs i ∈ (L k).map Ptr.bufs := List.mem_map_of_mem _ hk
    exact ⟨seg_next_prev _ _ hseg _ (List.mem_cons_of_mem _ hm),
      seg_prev_next _ _ hseg _ (List.mem_append_left _ hm)⟩
  · intro k hk
    have hseg := I.rings.seg k hk
    exact ⟨seg_next_prev _ _ hseg _ (by simp), seg_prev_next _ _ hseg _ (by simp)⟩
  · have h1 : (List.range NUMBUCKET).map (fun k => (bucket_list (NBUF + 1) s k).length) =
        (List.range NUMBUCKET).map (fun k => (L k).length) := by
      apply List.map_congr_left
      intro k hk
      rw [hbl k (List.mem_range.mp hk), List.length_map]
    rw [h1]
    exact inv_total_length I
  · intro disk i hi
    obtain ⟨L0, I0, hplace⟩ := binit_inv NBUF disk
    obtain ⟨k, hk⟩ := (I0.pool i).mp hi
    rw [hplace k i hk]
    exact (linked_iff I0.rings (rings_lt I0.rings hk) _).mpr ⟨i, hk, rfl⟩

/-- Instance of the theorem above: with 30 buffers, after `binit`, `bget(1,1)`
and `bget(1,14)`, both of which move a buffer of bucket 0 to bucket 1, the 13
lists still hold 30 buffers in all. -/
theorem buckets_partition_pool_witness :
    bucket_list 31 (after 30 [.bget 1 1, .bget 1 14]) 0 = [.bufs 26] ∧
    bucket_list 31 (after 30 [.bget 1 1, .bget 1 14]) 1 =
      [.bufs 13, .bufs 0, .bufs 27, .bufs 14, .bufs 1] ∧
    ((List.range NUMBUCKET).map
      (fun k => (bucket_list (30 + 1) (after 30 [.bget 1 1, .bget 1 14]) k).length)).sum = 30 :=
  ⟨by decide, by decide,
    (buckets_partition_pool 30 (after 30 [.bget 1 1, .bget 1 14])
      (after_reachable 30 _)).2.2.2.2.2.1⟩

/-! ## C12 -/

/-- C12.  In every reachable state (the clock never running backwards), when
`bget` returns buffer `b`, on a hit or on a miss, the `time_stamp` of `b` after
the call is greater than or equal to its `time_stamp` before the call. -/
theorem bget_stamp_monotone (NBUF : Nat) (s : State) (hs : Reachable NBUF s)
    (fuel dev blockno : Nat) (s2 : State) (b : Ptr)
    (h : bget fuel s dev blockno = .ok (s2, b)) :
    s.time_stamp b ≤ s2.time_stamp b := by
  obtain ⟨L, I⟩ := reachable_inv hs
  have ht : s2.time_stamp b = s.ticks := by
    rcases bget_ok_cases h with ⟨_, h2⟩ | ⟨_, _, _, h4⟩
    · rw [h2]
      show upd s.time_stamp b s.ticks b = s.ticks
      rw [upd_same]
    · obtain ⟨_, _, _, _, ft, _⟩ := recycle_fields s dev blockno b
      rw [h4, ft, upd_same]
  rw [ht]
  exact I.stamp b

/-- Instance of the theorem above: with 30 buffers, after `bget(1,1)` at tick 5
and `brelse`, the hit `bget(1,1)` at tick 9 raises the stamp of `bufs[0]` from 5
to 9. -/
theorem bget_stamp_monotone_witness :
    (after 30 [.tick 5, .bget 1 1, .brelse 0, .tick 9]).time_stamp (.bufs 0) = 5 ∧
    (bget_state 31 (after 30 [.tick 5, .bget 1 1, .brelse 0, .tick 9]) 1 1).time_stamp
      (.bufs 0) = 9 ∧
    (after 30 [.tick 5, .bget 1 1, .brelse 0, .tick 9]).time_stamp (.bufs 0) ≤
      (bget_state 31 (after 30 [.tick 5, .bget 1 1, .brelse 0, .tick 9]) 1 1).time_stamp
        (.bufs 0) :=
  ⟨by decide, by decide,
    bget_stamp_monotone 30 _ (after_reachable 30 _) 31 1 1 _ (.bufs 0)
      (bget_of_buf (by decide))⟩

end Bio

namespace Sysfile

/-! ## C13 -/

theorem or_ne_zero_right (a : Nat) {b : Nat} (hb : b ≠ 0) : a ||| b ≠ 0 := by
  intro h
  obtain ⟨i, hi⟩ := Nat.ne_zero_implies_bit_true hb
  have h2 : (a ||| b).testBit i = true := by
    rw [Nat.testBit_or, hi, Bool.or_true]
  rw [h, Nat.zero_testBit] at h2
  cases h2

/-- Whatever the protection of the mapping, the permission computed by
`mmaphandler` is `PTE_U | PTE_R | PTE_W`, as soon as `PROT_READ` and `PROT_WRITE`
are not zero. -/
theorem mmaphandler_perm_const (c : Consts) (v : vma) (hr : c.PROT_READ ≠ 0)
    (hw : c.PROT_WRITE ≠ 0) : mmaphandler_perm c v = c.PTE_U ||| c.PTE_R ||| c.PTE_W := by
  unfold mmaphandler_perm
  simp only [if_pos (or_ne_zero_right v.prot hr), if_pos (or_ne_zero_right v.prot hw)]

/-- C13 (the code departs from the claim).  A process of size `0x4000` maps 4096
bytes with `PROT_READ` only (`prot == 1`, `flags == MAP_PRIVATE`).  On a fault at
`0x4000` the permission that `mmaphandler` passes to `mappages` is 22, that is
`PTE_U | PTE_R | PTE_W`: it contains `PTE_W` although `prot` does not have
`PROT_WRITE`.  With the constants of xv6 the permission is 22 for every value of
`prot`. -/
theorem read_only_mapping_mapped_writable :
    (sys_mmap_vma xv6 0x4000 4096 1 2).prot &&& xv6.PROT_WRITE = 0 ∧
    mmaphandler xv6 [sys_mmap_vma xv6 0x4000 4096 1 2] 0x4000 = some 22 ∧
    22 &&& xv6.PTE_W = xv6.PTE_W ∧
    (∀ v, mmaphandler_perm xv6 v = 22) :=
  ⟨by decide, by decide, by decide,
    fun v => mmaphandler_perm_const xv6 v (by decide) (by decide)⟩

end Sysfile
